import Mathlib

/-!
Verification development for the Covenant Schedule Generator
(src/schedule_generator.py).

The Python source is shallowly embedded below:
* calendar dates are a structure of `Nat` fields (year, month, day), with
  Python `date` ordering (lexicographic on valid dates), `timedelta` day
  stepping, `dateutil.relativedelta` month addition with day clamping, and
  `calendar.monthrange` / `calendar.isleap`;
* the holiday set is the set of `YYYY-MM-DD` strings held by the generator
  (`self.holidays`), queried through `strftime('%Y-%m-%d')`;
* Python dicts are association lists whose values are strings or opaque
  non-string values (`isinstance(..., str)` checks are faithful);
* raised exceptions become an error result; unbounded `while` loops take a
  fuel argument, with a distinguished out-of-fuel result.
-/

namespace CovSched

/-- A calendar date, as Python's `datetime.date` (year, month, day). -/
structure Date where
  year : Nat
  month : Nat
  day : Nat
deriving DecidableEq, Repr

/-- Python `calendar.isleap`. -/
def isLeap (y : Nat) : Bool :=
  y % 4 = 0 && (y % 100 != 0 || y % 400 = 0)

/-- Number of days in a month: `calendar.monthrange(y, m)[1]`. -/
def daysInMonth (y m : Nat) : Nat :=
  match m with
  | 2 => if isLeap y then 29 else 28
  | 4 => 30
  | 6 => 30
  | 9 => 30
  | 11 => 30
  | _ => 31

/-- A structurally valid Gregorian date (what `datetime.date` admits,
ignoring the year 9999 upper bound, which no claim touches). -/
def ValidDate (d : Date) : Prop :=
  1 ≤ d.year ∧ 1 ≤ d.month ∧ d.month ≤ 12 ∧ 1 ≤ d.day ∧ d.day ≤ daysInMonth d.year d.month

instance (d : Date) : Decidable (ValidDate d) := by
  unfold ValidDate; infer_instance

/-- Python `date` ordering; on valid dates the lexicographic order on
(year, month, day) coincides with comparison of `toordinal` values. -/
def Date.le (a b : Date) : Prop :=
  a.year < b.year ∨ (a.year = b.year ∧ (a.month < b.month ∨ (a.month = b.month ∧ a.day ≤ b.day)))

/-- Strict version of `Date.le`. -/
def Date.lt (a b : Date) : Prop :=
  a.year < b.year ∨ (a.year = b.year ∧ (a.month < b.month ∨ (a.month = b.month ∧ a.day < b.day)))

instance : LE Date := ⟨Date.le⟩

instance : LT Date := ⟨Date.lt⟩

instance (a b : Date) : Decidable (a ≤ b) :=
  inferInstanceAs (Decidable (a.year < b.year ∨ (a.year = b.year ∧ (a.month < b.month ∨ (a.month = b.month ∧ a.day ≤ b.day)))))

instance (a b : Date) : Decidable (a < b) :=
  inferInstanceAs (Decidable (a.year < b.year ∨ (a.year = b.year ∧ (a.month < b.month ∨ (a.month = b.month ∧ a.day < b.day)))))

theorem Date.le_def (a b : Date) : a ≤ b ↔
    (a.year < b.year ∨ (a.year = b.year ∧ (a.month < b.month ∨ (a.month = b.month ∧ a.day ≤ b.day)))) :=
  Iff.rfl

theorem Date.lt_def (a b : Date) : a < b ↔
    (a.year < b.year ∨ (a.year = b.year ∧ (a.month < b.month ∨ (a.month = b.month ∧ a.day < b.day)))) :=
  Iff.rfl

/-- Days strictly before year `y` in the proleptic Gregorian calendar
(so that `toOrdinal` matches Python's `date.toordinal`). -/
def daysBeforeYear (y : Nat) : Nat :=
  365 * (y - 1) + (y - 1) / 4 + (y - 1) / 400 - (y - 1) / 100

/-- Days strictly before month `m` in year `y`. -/
def daysBeforeMonth (y m : Nat) : Nat :=
  (match m with
   | 1 => 0
   | 2 => 31
   | 3 => 59
   | 4 => 90
   | 5 => 120
   | 6 => 151
   | 7 => 181
   | 8 => 212
   | 9 => 243
   | 10 => 273
   | 11 => 304
   | _ => 334) + (if 3 ≤ m ∧ isLeap y then 1 else 0)

/-- Python `date.toordinal`: day 1 is 0001-01-01. -/
def toOrdinal (d : Date) : Nat :=
  daysBeforeYear d.year + daysBeforeMonth d.year d.month + d.day

/-- Python `date.weekday()`: Monday = 0 … Sunday = 6. -/
def weekday (d : Date) : Nat :=
  (toOrdinal d + 6) % 7

/-- The next calendar day (`d + timedelta(days=1)`). -/
def succDate (d : Date) : Date :=
  if d.day < daysInMonth d.year d.month then ⟨d.year, d.month, d.day + 1⟩
  else if d.month < 12 then ⟨d.year, d.month + 1, 1⟩
  else ⟨d.year + 1, 1, 1⟩

/-- The previous calendar day (`d - timedelta(days=1)`). -/
def predDate (d : Date) : Date :=
  if 1 < d.day then ⟨d.year, d.month, d.day - 1⟩
  else if 1 < d.month then ⟨d.year, d.month - 1, daysInMonth d.year (d.month - 1)⟩
  else ⟨d.year - 1, 12, 31⟩

/-- `d + timedelta(days=n)`. -/
def addDays (d : Date) : Nat → Date
  | 0 => d
  | n + 1 => succDate (addDays d n)

/-- `d + relativedelta(months=m)` (dateutil): advance the month count and
clamp the day to the length of the target month. -/
def addMonths (d : Date) (m : Nat) : Date :=
  let t := d.year * 12 + (d.month - 1) + m
  ⟨t / 12, t % 12 + 1, min d.day (daysInMonth (t / 12) (t % 12 + 1))⟩

/-- The character for a decimal digit value. -/
def digitChar (d : Nat) : Char :=
  Char.ofNat (48 + d)

/-- Decimal digits of `n`, least significant first, by fuel recursion
(the fuel `n` itself always suffices). -/
def digitsRev : Nat → Nat → List Char
  | 0, _ => []
  | fuel + 1, n => if n = 0 then [] else digitChar (n % 10) :: digitsRev fuel (n / 10)

/-- Decimal digit characters of `n`, most significant first. -/
def natDigits (n : Nat) : List Char :=
  (digitsRev n n).reverse

/-- Zero-pad the decimal form of `n` to width `w` (Python `f"{n:0wd}"`,
and the zero-padding of `strftime` fields). -/
def padNum (w n : Nat) : List Char :=
  List.replicate (w - (natDigits n).length) '0' ++ natDigits n

/-- Python `d.strftime('%Y-%m-%d')`. -/
def formatDate (d : Date) : String :=
  String.mk (padNum 4 d.year ++ '-' :: (padNum 2 d.month ++ '-' :: padNum 2 d.day))

/-- Errors raised by the source: each `ValueError` site keeps the field or
value its message names; `RuntimeError` from the bounded business-day
search is `noBusinessDay`. -/
inductive GenErr where
  | txMissing (field : String)
  | txNotString (field : String)
  | txBadDate (field : String)
  | txOrder
  | covMissing (field : String)
  | covNotString (field : String)
  | covBadFreq (freq : String)
  | covBadEmail (email : String)
  | covTxMismatch (covId : String)
  | covDuplicate (covId : String)
  | unsupportedFreq (freq : String)
  | noBusinessDay
deriving DecidableEq, Repr

/-- Result of an embedded Python computation: normal return, raised
exception, or fuel exhaustion of the embedding (`out` never corresponds
to a source behaviour; it marks an under-fueled run). -/
inductive Res (α : Type) where
  | ok (a : α)
  | err (e : GenErr)
  | out
deriving DecidableEq, Repr

/-- True exactly on a normal return. -/
def Res.isOk {α : Type} : Res α → Bool
  | .ok _ => true
  | _ => false

/-- Generator configuration after `__init__`: the holiday set (of
`YYYY-MM-DD` strings) and the validated adjustment direction
(`business_day_adjustment == 'forward'`). -/
structure Gen where
  holidays : List String
  adjForward : Bool

/-- Python `_is_business_day`: Monday–Friday and not a configured holiday
(the set holds `strftime('%Y-%m-%d')` strings). -/
def isBusinessDay (g : Gen) (d : Date) : Bool :=
  decide (weekday d < 5) && decide (formatDate d ∉ g.holidays)

/-- Loop body of `_adjust_to_business_day`, counting down the remaining
allowed steps; the source checks the initial date plus at most 10 stepped
dates and raises `RuntimeError` when all fail. -/
def adjustGo (g : Gen) (fwd : Bool) : Nat → Date → Res Date
  | 0, d => if isBusinessDay g d then .ok d else .err .noBusinessDay
  | n + 1, d =>
      if isBusinessDay g d then .ok d
      else adjustGo g fwd n (if fwd then succDate d else predDate d)

/-- Python `_adjust_to_business_day(d, forward)`. -/
def adjustToBusinessDay (g : Gen) (d : Date) (fwd : Bool) : Res Date :=
  adjustGo g fwd 10 d

/-- A dict value: a string, or some non-string object. -/
inductive Value where
  | str (s : String)
  | other
deriving DecidableEq, Repr

/-- An input dict (transaction or covenant). -/
def Dict : Type := List (String × Value)

instance : DecidableEq Dict :=
  inferInstanceAs (DecidableEq (List (String × Value)))

/-- Dict lookup (`d[k]` / `k in d`). -/
def dictGet : Dict → String → Option Value
  | [], _ => none
  | (k, v) :: r, key => if k = key then some v else dictGet r key

/-- The string held at key `k`; defaults to `""`, which is only reachable
on inputs the source validation has already rejected. -/
def dstr (d : Dict) (k : String) : String :=
  match dictGet d k with
  | some (.str s) => s
  | _ => ""

/-- ASCII lower-casing, as Python `str.lower` behaves on the ASCII
frequency strings. -/
def strLower (s : String) : String :=
  String.mk (s.data.map Char.toLower)

/-- Split a character list at every `'-'`. -/
def splitDash : List Char → List (List Char)
  | [] => [[]]
  | c :: r =>
      match splitDash r, decide (c = '-') with
      | gs, true => [] :: gs
      | g :: gs, false => (c :: g) :: gs
      | [], false => [[c]]

/-- Numeric value of a digit-character list. -/
def digitsVal (cs : List Char) : Nat :=
  cs.foldl (fun a c => a * 10 + (c.toNat - 48)) 0

/-- Python `datetime.strptime(s, '%Y-%m-%d')` (date part): three dash
separated digit groups (`%Y` up to 4 digits, `%m`/`%d` up to 2), forming
a constructible `datetime.date`. -/
def parseDate (s : String) : Option Date :=
  match splitDash s.data with
  | [ys, ms, ds] =>
      if ys ≠ [] ∧ ys.length ≤ 4 ∧ ys.all Char.isDigit
          ∧ ms ≠ [] ∧ ms.length ≤ 2 ∧ ms.all Char.isDigit
          ∧ ds ≠ [] ∧ ds.length ≤ 2 ∧ ds.all Char.isDigit then
        let y := digitsVal ys
        let m := digitsVal ms
        let d := digitsVal ds
        if 1 ≤ y ∧ 1 ≤ m ∧ m ≤ 12 ∧ 1 ≤ d ∧ d ≤ daysInMonth y m then
          some ⟨y, m, d⟩
        else none
      else none
  | _ => none

/-- Characters allowed in the local part of the source's email regex
`[A-Za-z0-9._%+-]`. -/
def isLocalChar (c : Char) : Bool :=
  c.isAlphanum || c = '.' || c = '_' || c = '%' || c = '+' || c = '-'

/-- Characters allowed by `[A-Za-z0-9.-]`. -/
def isDomainChar (c : Char) : Bool :=
  c.isAlphanum || c = '.' || c = '-'

/-- Domain part of the regex: `[A-Za-z0-9.-]+\.[A-Za-z]\x7b2,\x7d$`.
Since the final alpha run cannot contain a dot, the regex matches exactly
when splitting at the last dot gives a nonempty domain-char prefix and an
all-alpha suffix of length at least 2. -/
def validDomain (cs : List Char) : Bool :=
  let r := cs.reverse
  let t := r.takeWhile (fun c => !(c = '.'))
  match r.dropWhile (fun c => !(c = '.')) with
  | '.' :: rest =>
      decide (2 ≤ t.length) && t.all Char.isAlpha
        && decide (rest ≠ []) && rest.all isDomainChar
  | _ => false

/-- Python `re.match(r"^[A-Za-z0-9._%+-]+@[A-Za-z0-9.-]+\.[A-Za-z]\x7b2,\x7d$", s)`:
a nonempty local part, `@`, and a valid domain; `$` also matches before a
single trailing newline. -/
def validEmail (s : String) : Bool :=
  let cs := match s.data.getLast? with
    | some c => if c = '\n' then s.data.dropLast else s.data
    | none => s.data
  let l := cs.takeWhile isLocalChar
  match decide (l ≠ []), cs.drop l.length with
  | true, '@' :: rest => validDomain rest
  | _, _ => false

/-- The `for key in required` presence/str loop of
`_validate_transaction`. -/
def checkTxKeys (t : Dict) : List String → Option GenErr
  | [] => none
  | k :: r =>
      match dictGet t k with
      | none => some (.txMissing k)
      | some (.str _) => checkTxKeys t r
      | some .other => some (.txNotString k)

/-- Python `ScheduleGenerator._validate_transaction`: required fields
present and strings, both dates parseable, `start_date ≤ end_date`.
The source returns `None`; the embedding returns the parsed pair, which
every later `strptime` re-parse in the source reproduces verbatim. -/
def validateTransaction (t : Dict) : Res (Date × Date) :=
  match checkTxKeys t ["transaction_id", "name", "start_date", "end_date"] with
  | some e => .err e
  | none =>
    match parseDate (dstr t "start_date") with
    | none => .err (.txBadDate "start_date")
    | some s =>
      match parseDate (dstr t "end_date") with
      | none => .err (.txBadDate "end_date")
      | some e => if s ≤ e then .ok (s, e) else .err .txOrder

/-- Frequencies accepted by validation. -/
def allowedFrequencies : List String :=
  ["daily", "weekly", "monthly", "quarterly", "annually"]

/-- The `for key in required` presence/str loop of `_validate_covenant`. -/
def checkCovKeys (c : Dict) : List String → Option GenErr
  | [] => none
  | k :: r =>
      match dictGet c k with
      | none => some (.covMissing k)
      | some (.str _) => checkCovKeys c r
      | some .other => some (.covNotString k)

/-- Python `ScheduleGenerator._validate_covenant`. -/
def validateCovenant (c : Dict) : Res Unit :=
  match checkCovKeys c ["covenant_id", "transaction_id", "description", "frequency", "owner_email"] with
  | some e => .err e
  | none =>
    if strLower (dstr c "frequency") ∈ allowedFrequencies then
      if validEmail (dstr c "owner_email") then .ok ()
      else .err (.covBadEmail (dstr c "owner_email"))
    else .err (.covBadFreq (dstr c "frequency"))

/-- One generated schedule entry. `due_date`, `period_start` and
`period_end` are kept as dates; the source serializes them with
`strftime('%Y-%m-%d')`, which is injective on valid dates. -/
structure Entry where
  schedule_id : String
  covenant_id : String
  due_date : Date
  status : String
  period_start : Date
  period_end : Date
deriving DecidableEq, Repr

/-- The `schedule_id` string `f"SCH-{covenant_id}-{idx:03d}"`. -/
def scheduleId (cid : String) (idx : Nat) : String :=
  String.mk ("SCH-".data ++ cid.data ++ '-' :: padNum 3 idx)

/-- Python `_make_schedule_entry`. -/
def mkScheduleEntry (cov : Dict) (idx : Nat) (due ps pe : Date) : Entry :=
  { schedule_id := scheduleId (dstr cov "covenant_id") idx
    covenant_id := dstr cov "covenant_id"
    due_date := due
    status := "pending"
    period_start := ps
    period_end := pe }

/-- Body of one iteration of the `_generate_weekly_schedules` loop;
`rec` is the rest of the loop run from the advanced state. The period is
`[period_start, period_start + 6]` and the raw due date `period_start + 7`. -/
def weeklyStep (g : Gen) (endD : Date) (cov : Dict)
    (rec : Date → Nat → Res (List Entry)) (ps : Date) (idx : Nat) : Res (List Entry) :=
  if ps < endD then
    match (if isBusinessDay g (addDays ps 7) then .ok (addDays ps 7)
           else adjustToBusinessDay g (addDays ps 7) g.adjForward) with
    | .err e => .err e
    | .out => .out
    | .ok due =>
      if endD < due then .ok []
      else
        match rec (addDays ps 7) (idx + 1) with
        | .ok rest => .ok (mkScheduleEntry cov idx due ps (addDays ps 6) :: rest)
        | r => r
  else .ok []

/-- Loop of `_generate_weekly_schedules` over `period_start` and `idx`. -/
def weeklyGo (g : Gen) (endD : Date) (cov : Dict) : Nat → Date → Nat → Res (List Entry)
  | 0, _, _ => .out
  | fuel + 1, ps, idx => weeklyStep g endD cov (weeklyGo g endD cov fuel) ps idx

/-- Python `_generate_weekly_schedules`. -/
def weeklySchedules (g : Gen) (startD endD : Date) (cov : Dict) (fuel : Nat) : Res (List Entry) :=
  weeklyGo g endD cov fuel startD 1

/-- Body of one iteration of the `_generate_daily_schedules` loop. -/
def dailyStep (g : Gen) (endD : Date) (cov : Dict)
    (rec : Date → Nat → Res (List Entry)) (cur : Date) (idx : Nat) : Res (List Entry) :=
  if cur < endD then
    if isBusinessDay g cur then
      match adjustToBusinessDay g (addDays cur 1) g.adjForward with
      | .err e => .err e
      | .out => .out
      | .ok due =>
        if endD < due then .ok []
        else
          match rec (addDays cur 1) (idx + 1) with
          | .ok rest => .ok (mkScheduleEntry cov idx due cur cur :: rest)
          | r => r
    else rec (addDays cur 1) idx
  else .ok []

/-- Loop of `_generate_daily_schedules` over `current` and `idx`. -/
def dailyGo (g : Gen) (endD : Date) (cov : Dict) : Nat → Date → Nat → Res (List Entry)
  | 0, _, _ => .out
  | fuel + 1, cur, idx => dailyStep g endD cov (dailyGo g endD cov fuel) cur idx

/-- Python `_generate_daily_schedules`. -/
def dailySchedules (g : Gen) (startD endD : Date) (cov : Dict) (fuel : Nat) : Res (List Entry) :=
  dailyGo g endD cov fuel startD 1

/-- The last day of February of the year of `np` (`next_period_start.replace(
month=2, day=calendar.monthrange(next_period_start.year, 2)[1])`). -/
def febEnd (np : Date) : Date :=
  ⟨np.year, 2, daysInMonth np.year 2⟩

/-- The quarterly month-end special case of `_generate_periodic_schedules`
(source lines 239-247): when the next period starts in March, emit an
extra entry due at the business-day-adjusted end of February, provided it
does not pass the transaction end; returns the extra entries and the
updated index. -/
def periodicExtra (g : Gen) (endD : Date) (cov : Dict) (np ps : Date) (idx : Nat) :
    Res (List Entry × Nat) :=
  match (if isBusinessDay g (febEnd np) then .ok (febEnd np)
         else adjustToBusinessDay g (febEnd np) g.adjForward) with
  | .err e => .err e
  | .out => .out
  | .ok feb =>
    if feb ≤ endD then .ok ([mkScheduleEntry cov idx feb ps feb], idx + 1)
    else .ok ([], idx)

/-- The day-of-month policy of `_generate_periodic_schedules` (source
lines 220-228): month-end anchoring, else reuse the original day, else
the target month-end. -/
def periodicDue0 (np : Date) (origDay : Nat) (isMonthEnd : Bool) : Date :=
  if isMonthEnd then ⟨np.year, np.month, daysInMonth np.year np.month⟩
  else if origDay ≤ daysInMonth np.year np.month then ⟨np.year, np.month, origDay⟩
  else ⟨np.year, np.month, daysInMonth np.year np.month⟩

/-- The computed (pre-adjustment) due date of one periodic iteration:
`periodicDue0` overridden by the annual February-29 leap rule (source
lines 230-235). -/
def periodicDue (startD np : Date) (months origDay : Nat) (isMonthEnd : Bool) : Date :=
  if months = 12 ∧ startD.month = 2 ∧ startD.day = 29 then
    (if isLeap np.year then (⟨np.year, 2, 29⟩ : Date) else ⟨np.year, 2, 28⟩)
  else periodicDue0 np origDay isMonthEnd

/-- Body of one iteration of the `_generate_periodic_schedules` loop
(`while True`); `origDay` and `isMonthEnd` are fixed from the transaction
start date before the loop, `next_period_start` is `addMonths ps months`
and `period_end` the day before it. -/
def periodicStep (g : Gen) (startD endD : Date) (cov : Dict) (months : Nat)
    (origDay : Nat) (isMonthEnd : Bool)
    (rec : Date → Nat → Res (List Entry)) (ps : Date) (idx : Nat) : Res (List Entry) :=
  match (if months = 3 ∧ isMonthEnd = true ∧ (addMonths ps months).month = 3 then
           periodicExtra g endD cov (addMonths ps months) ps idx
         else (.ok ([], idx) : Res (List Entry × Nat))) with
  | .err e => .err e
  | .out => .out
  | .ok (extras, idx1) =>
    if endD < periodicDue startD (addMonths ps months) months origDay isMonthEnd then .ok extras
    else
      match (if isBusinessDay g (periodicDue startD (addMonths ps months) months origDay isMonthEnd) then
               .ok (periodicDue startD (addMonths ps months) months origDay isMonthEnd)
             else adjustToBusinessDay g
               (periodicDue startD (addMonths ps months) months origDay isMonthEnd) g.adjForward) with
      | .err e => .err e
      | .out => .out
      | .ok due =>
        match rec (addMonths ps months) (idx1 + 1) with
        | .ok rest =>
            .ok (extras ++ mkScheduleEntry cov idx1 due ps (predDate (addMonths ps months)) :: rest)
        | r => r

/-- Loop of `_generate_periodic_schedules`, carrying `period_start` and
`idx`. -/
def periodicGo (g : Gen) (startD endD : Date) (cov : Dict) (months : Nat)
    (origDay : Nat) (isMonthEnd : Bool) : Nat → Date → Nat → Res (List Entry)
  | 0, _, _ => .out
  | fuel + 1, ps, idx =>
      periodicStep g startD endD cov months origDay isMonthEnd
        (periodicGo g startD endD cov months origDay isMonthEnd fuel) ps idx

/-- Python `_generate_periodic_schedules`. -/
def periodicSchedules (g : Gen) (startD endD : Date) (cov : Dict) (months : Nat) (fuel : Nat) :
    Res (List Entry) :=
  periodicGo g startD endD cov months startD.day
    (decide (daysInMonth startD.year startD.month = startD.day)) fuel startD 1

/-- The per-covenant duration gate and frequency dispatch inside
`generate_schedules` (source lines 124-141). -/
def genForCovenant (g : Gen) (startD endD : Date) (cov : Dict) (fuel : Nat) : Res (List Entry) :=
  if strLower (dstr cov "frequency") = "annually" ∧ toOrdinal endD - toOrdinal startD < 365 then
    .ok []
  else if strLower (dstr cov "frequency") = "quarterly" ∧ toOrdinal endD - toOrdinal startD < 90 then
    .ok []
  else if strLower (dstr cov "frequency") = "monthly" ∧ toOrdinal endD - toOrdinal startD < 28 then
    .ok []
  else if strLower (dstr cov "frequency") = "daily" then dailySchedules g startD endD cov fuel
  else if strLower (dstr cov "frequency") = "weekly" then weeklySchedules g startD endD cov fuel
  else if strLower (dstr cov "frequency") = "monthly" then periodicSchedules g startD endD cov 1 fuel
  else if strLower (dstr cov "frequency") = "quarterly" then periodicSchedules g startD endD cov 3 fuel
  else if strLower (dstr cov "frequency") = "annually" then periodicSchedules g startD endD cov 12 fuel
  else .err (.unsupportedFreq (strLower (dstr cov "frequency")))

/-- Body of one step of the `for cov in covenants` loop of
`generate_schedules`: validation, referential and uniqueness checks, then
dispatch, with `rec` handling the remaining covenants. -/
def generateStep (g : Gen) (startD endD : Date) (txid : String) (fuel : Nat) (cov : Dict)
    (rec : List String → Res (List Entry)) (seen : List String) : Res (List Entry) :=
  match validateCovenant cov with
  | .err e => .err e
  | .out => .out
  | .ok _ =>
    if dstr cov "transaction_id" ≠ txid then .err (.covTxMismatch (dstr cov "covenant_id"))
    else if dstr cov "covenant_id" ∈ seen then .err (.covDuplicate (dstr cov "covenant_id"))
    else
      match genForCovenant g startD endD cov fuel with
      | .err e => .err e
      | .out => .out
      | .ok a =>
        match rec (dstr cov "covenant_id" :: seen) with
        | .ok b => .ok (a ++ b)
        | r => r

/-- The `for cov in covenants` loop of `generate_schedules`, threading the
`seen_covenant_ids` set and concatenating per-covenant results. -/
def generateGo (g : Gen) (startD endD : Date) (txid : String) (fuel : Nat) :
    List Dict → List String → Res (List Entry)
  | [], _ => .ok []
  | cov :: rest, seen =>
      generateStep g startD endD txid fuel cov
        (generateGo g startD endD txid fuel rest) seen

/-- Python `ScheduleGenerator.generate_schedules`. -/
def generateSchedules (g : Gen) (t : Dict) (covs : List Dict) (fuel : Nat) : Res (List Entry) :=
  match validateTransaction t with
  | .err e => .err e
  | .out => .out
  | .ok (s, e) => generateGo g s e (dstr t "transaction_id") fuel covs []

/-- Iterated single-day stepping in the direction used by
`_adjust_to_business_day` (`True` = forward). -/
def stepK (fwd : Bool) (d : Date) : Nat → Date
  | 0 => d
  | n + 1 => stepK fwd (if fwd then succDate d else predDate d) n

/-- An entry whose period is a full `months`-month period starting at its
`period_start` — the shape of every entry appended at the regular emission
point of `_generate_periodic_schedules` (line 257), as opposed to the
quarterly extra-February entries (line 246), whose period ends at their
due date in late February / early March. -/
def isRegularPeriod (months : Nat) (e : Entry) : Bool :=
  decide (e.period_end = predDate (addMonths e.period_start months))

/-- Generator with an empty holiday set and forward adjustment (the
source defaults). -/
def gFwd : Gen := ⟨[], true⟩

/-- Quarterly scenario transaction 2025-03-31 → 2026-03-31. -/
def txQ : Dict :=
  [("transaction_id", .str "TXN-1"), ("name", .str "Deal Q"),
   ("start_date", .str "2025-03-31"), ("end_date", .str "2026-03-31")]

/-- Quarterly month-end-anchored covenant for `txQ`. -/
def covQ : Dict :=
  [("covenant_id", .str "COV-Q"), ("transaction_id", .str "TXN-1"),
   ("description", .str "quarterly reporting"), ("frequency", .str "quarterly"),
   ("owner_email", .str "owner@lender.com")]

/-- The five entries the quarterly scenario produces. -/
def entriesQ : List Entry :=
  [⟨"SCH-COV-Q-001", "COV-Q", ⟨2025, 6, 30⟩, "pending", ⟨2025, 3, 31⟩, ⟨2025, 6, 29⟩⟩,
   ⟨"SCH-COV-Q-002", "COV-Q", ⟨2025, 9, 30⟩, "pending", ⟨2025, 6, 30⟩, ⟨2025, 9, 29⟩⟩,
   ⟨"SCH-COV-Q-003", "COV-Q", ⟨2025, 12, 31⟩, "pending", ⟨2025, 9, 30⟩, ⟨2025, 12, 29⟩⟩,
   ⟨"SCH-COV-Q-004", "COV-Q", ⟨2026, 3, 2⟩, "pending", ⟨2025, 12, 30⟩, ⟨2026, 3, 2⟩⟩,
   ⟨"SCH-COV-Q-005", "COV-Q", ⟨2026, 3, 31⟩, "pending", ⟨2025, 12, 30⟩, ⟨2026, 3, 29⟩⟩]

/-- Annual leap scenario transaction 2024-02-29 → 2028-02-28. -/
def txA : Dict :=
  [("transaction_id", .str "TXN-2"), ("name", .str "Deal A"),
   ("start_date", .str "2024-02-29"), ("end_date", .str "2028-02-28")]

/-- Annual covenant for `txA`. -/
def covA : Dict :=
  [("covenant_id", .str "COV-A"), ("transaction_id", .str "TXN-2"),
   ("description", .str "annual reporting"), ("frequency", .str "annually"),
   ("owner_email", .str "owner@lender.com")]

/-- The three entries the annual leap scenario produces. -/
def entriesA : List Entry :=
  [⟨"SCH-COV-A-001", "COV-A", ⟨2025, 2, 28⟩, "pending", ⟨2024, 2, 29⟩, ⟨2025, 2, 27⟩⟩,
   ⟨"SCH-COV-A-002", "COV-A", ⟨2026, 3, 2⟩, "pending", ⟨2025, 2, 28⟩, ⟨2026, 2, 27⟩⟩,
   ⟨"SCH-COV-A-003", "COV-A", ⟨2027, 3, 1⟩, "pending", ⟨2026, 2, 28⟩, ⟨2027, 2, 27⟩⟩]

/-- Transaction 2025-01-15 → 2025-02-15; the end date is a Saturday. -/
def txM : Dict :=
  [("transaction_id", .str "TXN-3"), ("name", .str "Deal M"),
   ("start_date", .str "2025-01-15"), ("end_date", .str "2025-02-15")]

/-- Monthly covenant for `txM`. -/
def covM : Dict :=
  [("covenant_id", .str "COV-M"), ("transaction_id", .str "TXN-3"),
   ("description", .str "monthly reporting"), ("frequency", .str "monthly"),
   ("owner_email", .str "owner@lender.com")]

/-- Transaction 2025-01-06 → 2025-02-28 (starts on a Monday). -/
def txW : Dict :=
  [("transaction_id", .str "TXN-4"), ("name", .str "Deal W"),
   ("start_date", .str "2025-01-06"), ("end_date", .str "2025-02-28")]

/-- Weekly covenant for `txW`. -/
def covW : Dict :=
  [("covenant_id", .str "COV-W"), ("transaction_id", .str "TXN-4"),
   ("description", .str "weekly reporting"), ("frequency", .str "weekly"),
   ("owner_email", .str "owner@lender.com")]

/-- An invalid covenant for `txW`: its frequency is not in the allowed
set. -/
def covBad : Dict :=
  [("covenant_id", .str "COV-X"), ("transaction_id", .str "TXN-4"),
   ("description", .str "bad"), ("frequency", .str "biweekly"),
   ("owner_email", .str "owner@lender.com")]

/-- A holiday set blanketing every weekday from 2025-01-13 to 2025-01-23:
the forward search from 2025-01-13 finds no business day in 10 steps. -/
def gBlanket : Gen :=
  ⟨["2025-01-13", "2025-01-14", "2025-01-15", "2025-01-16", "2025-01-17",
    "2025-01-20", "2025-01-21", "2025-01-22", "2025-01-23"], true⟩

/-- Every day of January 2025 as a holiday. -/
def gJanHol : Gen :=
  ⟨["2025-01-01", "2025-01-02", "2025-01-03", "2025-01-04", "2025-01-05",
    "2025-01-06", "2025-01-07", "2025-01-08", "2025-01-09", "2025-01-10",
    "2025-01-11", "2025-01-12", "2025-01-13", "2025-01-14", "2025-01-15",
    "2025-01-16", "2025-01-17", "2025-01-18", "2025-01-19", "2025-01-20",
    "2025-01-21", "2025-01-22", "2025-01-23", "2025-01-24", "2025-01-25",
    "2025-01-26", "2025-01-27", "2025-01-28", "2025-01-29", "2025-01-30",
    "2025-01-31"], true⟩

/-- Transaction covering January 2025. -/
def txJan : Dict :=
  [("transaction_id", .str "TXN-5"), ("name", .str "Deal D"),
   ("start_date", .str "2025-01-01"), ("end_date", .str "2025-01-31")]

/-- Daily covenant for `txJan`. -/
def covD : Dict :=
  [("covenant_id", .str "COV-D"), ("transaction_id", .str "TXN-5"),
   ("description", .str "daily reporting"), ("frequency", .str "daily"),
   ("owner_email", .str "owner@lender.com")]

/-- Transaction spanning a single day. -/
def txOneDay : Dict :=
  [("transaction_id", .str "TXN-6"), ("name", .str "Deal 1d"),
   ("start_date", .str "2025-01-01"), ("end_date", .str "2025-01-02")]

/-- Monthly covenant for `txOneDay`. -/
def covM6 : Dict :=
  [("covenant_id", .str "COV-M6"), ("transaction_id", .str "TXN-6"),
   ("description", .str "monthly reporting"), ("frequency", .str "monthly"),
   ("owner_email", .str "owner@lender.com")]

/-- Transaction 2025-01-01 → 2025-03-15, used with two monthly covenants. -/
def txP : Dict :=
  [("transaction_id", .str "TXN-7"), ("name", .str "Deal P"),
   ("start_date", .str "2025-01-01"), ("end_date", .str "2025-03-15")]

/-- First monthly covenant for `txP`. -/
def covP1 : Dict :=
  [("covenant_id", .str "COV-1"), ("transaction_id", .str "TXN-7"),
   ("description", .str "monthly reporting"), ("frequency", .str "monthly"),
   ("owner_email", .str "owner@lender.com")]

/-- Second monthly covenant for `txP`. -/
def covP2 : Dict :=
  [("covenant_id", .str "COV-2"), ("transaction_id", .str "TXN-7"),
   ("description", .str "monthly certificate"), ("frequency", .str "monthly"),
   ("owner_email", .str "owner@lender.com")]

/-- The four entries `txP` with `covP1, covP2` produces. -/
def entriesP : List Entry :=
  [⟨"SCH-COV-1-001", "COV-1", ⟨2025, 2, 3⟩, "pending", ⟨2025, 1, 1⟩, ⟨2025, 1, 31⟩⟩,
   ⟨"SCH-COV-1-002", "COV-1", ⟨2025, 3, 3⟩, "pending", ⟨2025, 2, 1⟩, ⟨2025, 2, 28⟩⟩,
   ⟨"SCH-COV-2-001", "COV-2", ⟨2025, 2, 3⟩, "pending", ⟨2025, 1, 1⟩, ⟨2025, 1, 31⟩⟩,
   ⟨"SCH-COV-2-002", "COV-2", ⟨2025, 3, 3⟩, "pending", ⟨2025, 2, 1⟩, ⟨2025, 2, 28⟩⟩]

/-! ### Basic order facts about dates -/

theorem Date.le_refl (a : Date) : a ≤ a := by
  rw [Date.le_def]; omega

theorem Date.le_trans {a b c : Date} (h1 : a ≤ b) (h2 : b ≤ c) : a ≤ c := by
  rw [Date.le_def] at *; omega

theorem Date.le_of_lt {a b : Date} (h : a < b) : a ≤ b := by
  rw [Date.lt_def] at h; rw [Date.le_def]; omega

theorem Date.lt_of_lt_of_le {a b c : Date} (h1 : a < b) (h2 : b ≤ c) : a < c := by
  rw [Date.lt_def] at *; rw [Date.le_def] at h2; omega

theorem Date.lt_of_le_of_lt {a b c : Date} (h1 : a ≤ b) (h2 : b < c) : a < c := by
  rw [Date.le_def] at h1; rw [Date.lt_def] at *; omega

theorem Date.lt_irrefl (a : Date) : ¬ a < a := by
  rw [Date.lt_def]; omega

theorem Date.not_lt {a b : Date} : ¬ a < b ↔ b ≤ a := by
  rw [Date.lt_def, Date.le_def]; omega

theorem Date.eq_of_le_of_le {a b : Date} (h1 : a ≤ b) (h2 : b ≤ a) : a = b := by
  rw [Date.le_def] at *
  cases a; cases b
  simp only [Date.mk.injEq, true_and, and_true]
  simp only at h1 h2
  omega

/-! ### Month lengths and month prefix sums -/

theorem daysInMonth_ge (y m : Nat) : 28 ≤ daysInMonth y m := by
  unfold daysInMonth
  split <;> first | omega | split <;> omega

theorem daysInMonth_le (y m : Nat) : daysInMonth y m ≤ 31 := by
  unfold daysInMonth
  split <;> first | omega | split <;> omega

theorem daysBeforeMonth_succ (y m : Nat) (h1 : 1 ≤ m) (h2 : m ≤ 11) :
    daysBeforeMonth y (m + 1) = daysBeforeMonth y m + daysInMonth y m := by
  interval_cases m <;>
    simp only [daysBeforeMonth, daysInMonth] <;>
    cases hL : isLeap y <;> simp [hL]

theorem daysBeforeMonth_add_le (y m1 m2 : Nat) (h0 : 1 ≤ m1) (h1 : m1 < m2) (h2 : m2 ≤ 12) :
    daysBeforeMonth y m1 + daysInMonth y m1 ≤ daysBeforeMonth y m2 := by
  induction m2 with
  | zero => omega
  | succ n ih =>
      rcases Nat.lt_or_ge m1 n with hc | hc
      · have hn : daysBeforeMonth y (n + 1) = daysBeforeMonth y n + daysInMonth y n :=
          daysBeforeMonth_succ y n (by omega) (by omega)
        have := daysInMonth_ge y n
        have := ih hc (by omega)
        omega
      · have hm : m1 = n := by omega
        subst hm
        rw [daysBeforeMonth_succ y m1 (by omega) (by omega)]

theorem daysBeforeMonth_add_dim_le (y m : Nat) (h1 : 1 ≤ m) (h2 : m ≤ 12) :
    daysBeforeMonth y m + daysInMonth y m ≤ 365 + (if isLeap y then 1 else 0) := by
  interval_cases m <;>
    simp only [daysBeforeMonth, daysInMonth] <;>
    cases hL : isLeap y <;> simp [hL]

/-! ### Year prefix sums -/

theorem daysBeforeYear_succ (y : Nat) (hy : 1 ≤ y) :
    daysBeforeYear (y + 1) = daysBeforeYear y + 365 + (if isLeap y then 1 else 0) := by
  obtain ⟨b, rfl⟩ : ∃ b, y = b + 1 := ⟨y - 1, by omega⟩
  unfold daysBeforeYear
  simp only [Nat.add_sub_cancel]
  have h4 := Nat.succ_div b 4
  have h100 := Nat.succ_div b 100
  have h400 := Nat.succ_div b 400
  have hle : b / 100 ≤ b / 4 := Nat.div_le_div_left (by norm_num) (by norm_num)
  have hle2 : (b + 1) / 100 ≤ (b + 1) / 4 := Nat.div_le_div_left (by norm_num) (by norm_num)
  have hd1 : (100 : Nat) ∣ 400 := by norm_num
  have hd2 : (4 : Nat) ∣ 100 := by norm_num
  by_cases c4 : 4 ∣ (b + 1) <;> by_cases c100 : 100 ∣ (b + 1) <;> by_cases c400 : 400 ∣ (b + 1)
  all_goals
    first
    | exact absurd (dvd_trans hd1 c400) c100
    | exact absurd (dvd_trans hd2 c100) c4
    | · have e4 : ((b + 1) % 4 = 0) = (4 ∣ (b + 1)) :=
          propext Nat.dvd_iff_mod_eq_zero.symm
        have e100 : ((b + 1) % 100 = 0) = (100 ∣ (b + 1)) :=
          propext Nat.dvd_iff_mod_eq_zero.symm
        have e400 : ((b + 1) % 400 = 0) = (400 ∣ (b + 1)) :=
          propext Nat.dvd_iff_mod_eq_zero.symm
        simp only [isLeap, Bool.and_eq_true, Bool.or_eq_true, decide_eq_true_eq,
          bne_iff_ne, ne_eq, e4, e100, e400, c4, c100, c400]
        simp only [c4, c100, c400, if_true, if_false] at h4 h100 h400
        simp only [not_true, not_false_iff]
        norm_num
        omega

theorem daysBeforeYear_le_succ (y : Nat) (hy : 1 ≤ y) :
    daysBeforeYear y + 365 ≤ daysBeforeYear (y + 1) := by
  rw [daysBeforeYear_succ y hy]; omega

theorem daysBeforeYear_mono (y1 y2 : Nat) (h0 : 1 ≤ y1) (h : y1 ≤ y2) :
    daysBeforeYear y1 ≤ daysBeforeYear y2 := by
  induction y2 with
  | zero => omega
  | succ n ih =>
      rcases Nat.lt_or_ge y1 (n + 1) with hc | hc
      · have h1 := ih (by omega)
        have h2 := daysBeforeYear_le_succ n (by omega)
        omega
      · have he : y1 = n + 1 := by omega
        rw [he]

/-! ### The ordinal embedding of valid dates -/

theorem toOrdinal_le_year_bound (d : Date) (h : ValidDate d) :
    toOrdinal d ≤ daysBeforeYear (d.year + 1) := by
  obtain ⟨h1, h2, h3, h4, h5⟩ := h
  have hb := daysBeforeMonth_add_dim_le d.year d.month h2 h3
  rw [daysBeforeYear_succ d.year h1]
  unfold toOrdinal
  omega

theorem toOrdinal_lt_of_lt {a b : Date} (ha : ValidDate a) (hb : ValidDate b) (h : a < b) :
    toOrdinal a < toOrdinal b := by
  obtain ⟨ha1, ha2, ha3, ha4, ha5⟩ := ha
  obtain ⟨hb1, hb2, hb3, hb4, hb5⟩ := hb
  rw [Date.lt_def] at h
  rcases h with hy | ⟨hy, hm | ⟨hm, hd⟩⟩
  · have h1 := toOrdinal_le_year_bound a ⟨ha1, ha2, ha3, ha4, ha5⟩
    have h2 := daysBeforeYear_mono (a.year + 1) b.year (by omega) (by omega)
    unfold toOrdinal
    unfold toOrdinal at h1
    omega
  · have h1 := daysBeforeMonth_add_le a.year a.month b.month ha2 hm hb3
    rw [hy] at h1 ha5
    unfold toOrdinal
    rw [hy]
    omega
  · unfold toOrdinal
    rw [hy, hm]
    omega

theorem toOrdinal_le_of_le {a b : Date} (ha : ValidDate a) (hb : ValidDate b) (h : a ≤ b) :
    toOrdinal a ≤ toOrdinal b := by
  by_cases he : a = b
  · rw [he]
  · have hlt : a < b := by
      by_cases hl : a < b
      · exact hl
      · exact absurd (Date.eq_of_le_of_le h (Date.not_lt.mp hl)) he
    exact Nat.le_of_lt (toOrdinal_lt_of_lt ha hb hlt)

theorem toOrdinal_inj {a b : Date} (ha : ValidDate a) (hb : ValidDate b)
    (h : toOrdinal a = toOrdinal b) : a = b := by
  by_cases he : a = b
  · exact he
  · rcases Nat.lt_trichotomy a.year b.year with _ | hy | _ <;>
      first
      | exact absurd (toOrdinal_lt_of_lt ha hb (by rw [Date.lt_def]; omega)) (by omega)
      | (rcases Nat.lt_trichotomy a.month b.month with _ | hm | _ <;>
          first
          | exact absurd (toOrdinal_lt_of_lt ha hb (by rw [Date.lt_def]; omega)) (by omega)
          | exact absurd (toOrdinal_lt_of_lt hb ha (by rw [Date.lt_def]; omega)) (by omega)
          | (rcases Nat.lt_trichotomy a.day b.day with _ | hd | _ <;>
              first
              | exact absurd (toOrdinal_lt_of_lt ha hb (by rw [Date.lt_def]; omega)) (by omega)
              | exact absurd (toOrdinal_lt_of_lt hb ha (by rw [Date.lt_def]; omega)) (by omega)
              | exact absurd (Date.eq_of_le_of_le (by rw [Date.le_def]; omega)
                  (by rw [Date.le_def]; omega)) he))
      | exact absurd (toOrdinal_lt_of_lt hb ha (by rw [Date.lt_def]; omega)) (by omega)

theorem le_of_toOrdinal_le {a b : Date} (ha : ValidDate a) (hb : ValidDate b)
    (h : toOrdinal a ≤ toOrdinal b) : a ≤ b := by
  by_cases hc : a ≤ b
  · exact hc
  · have hlt : b < a := by rw [Date.le_def] at hc; rw [Date.lt_def]; omega
    exact absurd (toOrdinal_lt_of_lt hb ha hlt) (by omega)

/-! ### Stepping by single days -/

theorem le_succDate (d : Date) : d ≤ succDate d := by
  unfold succDate
  split
  · rw [Date.le_def]; dsimp only; omega
  · split
    · rw [Date.le_def]; dsimp only; omega
    · rw [Date.le_def]; dsimp only; omega

theorem validDate_succ {d : Date} (h : ValidDate d) : ValidDate (succDate d) := by
  obtain ⟨h1, h2, h3, h4, h5⟩ := h
  unfold succDate
  split
  · unfold ValidDate; dsimp only; omega
  · split
    · unfold ValidDate; dsimp only
      have := daysInMonth_ge d.year (d.month + 1)
      omega
    · unfold ValidDate; dsimp only
      have := daysInMonth_ge (d.year + 1) 1
      omega

theorem toOrdinal_succDate {d : Date} (h : ValidDate d) :
    toOrdinal (succDate d) = toOrdinal d + 1 := by
  obtain ⟨h1, h2, h3, h4, h5⟩ := h
  unfold succDate
  split
  · unfold toOrdinal; dsimp only; omega
  · rename_i hcap
    have hde : d.day = daysInMonth d.year d.month := by omega
    split
    · rename_i hm
      have hstep := daysBeforeMonth_succ d.year d.month h2 (by omega)
      unfold toOrdinal
      dsimp only
      omega
    · rename_i hm
      have hme : d.month = 12 := by omega
      have hy := daysBeforeYear_succ d.year h1
      unfold toOrdinal
      dsimp only
      rw [hme] at hde ⊢
      have hd12 : daysInMonth d.year 12 = 31 := rfl
      rw [hd12] at hde
      have hb1 : daysBeforeMonth (d.year + 1) 1 = 0 := by
        simp [daysBeforeMonth]
      have hb12 : daysBeforeMonth d.year 12 = 334 + (if isLeap d.year then 1 else 0) := by
        cases hL : isLeap d.year <;> simp [daysBeforeMonth, hL]
      rw [hb1, hb12]
      cases hL : isLeap d.year <;> rw [hL] at hy <;> simp at hy ⊢ <;> omega

theorem validDate_addDays {d : Date} (h : ValidDate d) (n : Nat) :
    ValidDate (addDays d n) := by
  induction n with
  | zero => exact h
  | succ n ih => exact validDate_succ ih

theorem toOrdinal_addDays {d : Date} (h : ValidDate d) (n : Nat) :
    toOrdinal (addDays d n) = toOrdinal d + n := by
  induction n with
  | zero => rfl
  | succ n ih =>
      have := toOrdinal_succDate (validDate_addDays h n)
      unfold addDays
      omega

theorem le_addDays (d : Date) (n : Nat) : d ≤ addDays d n := by
  induction n with
  | zero => exact Date.le_refl d
  | succ n ih => exact Date.le_trans ih (le_succDate (addDays d n))

theorem addDays_addDays (d : Date) (j i : Nat) :
    addDays (addDays d j) i = addDays d (j + i) := by
  induction i with
  | zero => rfl
  | succ i ih => unfold addDays; rw [ih]; rfl

theorem addDays_succDate (d : Date) (n : Nat) :
    addDays (succDate d) n = succDate (addDays d n) := by
  induction n with
  | zero => rfl
  | succ n ih => unfold addDays; rw [ih]

theorem stepK_true_eq_addDays (d : Date) (n : Nat) : stepK true d n = addDays d n := by
  induction n generalizing d with
  | zero => rfl
  | succ n ih =>
      have h1 : stepK true d (n + 1) = stepK true (succDate d) n := rfl
      rw [h1, ih (succDate d), addDays_succDate]
      rfl

theorem exists_addDays_of_between {a x : Date} (ha : ValidDate a) (hx : ValidDate x)
    (k : Nat) (h1 : a ≤ x) (h2 : x ≤ addDays a k) : ∃ j, j ≤ k ∧ x = addDays a j := by
  have hva := toOrdinal_le_of_le ha hx h1
  have hvb := toOrdinal_le_of_le hx (validDate_addDays ha k) h2
  rw [toOrdinal_addDays ha k] at hvb
  refine ⟨toOrdinal x - toOrdinal a, by omega, ?_⟩
  apply toOrdinal_inj hx (validDate_addDays ha _)
  rw [toOrdinal_addDays ha]
  omega

theorem stepK_false_day (d : Date) (k : Nat) (h : k < d.day) :
    stepK false d k = ⟨d.year, d.month, d.day - k⟩ := by
  induction k generalizing d with
  | zero =>
      cases d
      rfl
  | succ k ih =>
      have h1 : stepK false d (k + 1) = stepK false (predDate d) k := rfl
      have hp : predDate d = ⟨d.year, d.month, d.day - 1⟩ := by
        unfold predDate
        rw [if_pos (by omega)]
      rw [h1, hp, ih ⟨d.year, d.month, d.day - 1⟩ (by dsimp only; omega)]
      dsimp only
      simp only [Date.mk.injEq, true_and, and_true]
      omega

theorem succDate_predDate {d : Date} (h : ValidDate d) : succDate (predDate d) = d := by
  obtain ⟨h1, h2, h3, h4, h5⟩ := h
  unfold predDate
  split
  · rename_i hd1
    unfold succDate
    dsimp only
    rw [if_pos (by omega)]
    cases d
    dsimp only at *
    simp only [Date.mk.injEq, true_and, and_true]
    omega
  · rename_i hd1
    split
    · rename_i hm1
      unfold succDate
      dsimp only
      rw [if_neg (by omega), if_pos (by omega)]
      cases d
      dsimp only at *
      simp only [Date.mk.injEq, true_and, and_true]
      omega
    · rename_i hm1
      unfold succDate
      dsimp only
      have hd12 : daysInMonth (d.year - 1) 12 = 31 := rfl
      rw [hd12, if_neg (by omega), if_neg (by omega)]
      cases d
      dsimp only at *
      simp only [Date.mk.injEq, true_and, and_true]
      omega

/-! ### Month arithmetic -/

theorem validDate_addMonths {d : Date} (h : ValidDate d) (m : Nat) :
    ValidDate (addMonths d m) := by
  obtain ⟨h1, h2, h3, h4, h5⟩ := h
  unfold addMonths ValidDate
  dsimp only
  have hdm := daysInMonth_ge ((d.year * 12 + (d.month - 1) + m) / 12)
    ((d.year * 12 + (d.month - 1) + m) % 12 + 1)
  have hmod : (d.year * 12 + (d.month - 1) + m) % 12 < 12 := Nat.mod_lt _ (by omega)
  have hdiv := Nat.div_add_mod (d.year * 12 + (d.month - 1) + m) 12
  omega

theorem addMonths_ym {d : Date} (h : ValidDate d) (m : Nat) (hm : 1 ≤ m) :
    d.year < (addMonths d m).year ∨
      (d.year = (addMonths d m).year ∧ d.month < (addMonths d m).month) := by
  obtain ⟨h1, h2, h3, h4, h5⟩ := h
  unfold addMonths
  dsimp only
  have hmod : (d.year * 12 + (d.month - 1) + m) % 12 < 12 := Nat.mod_lt _ (by omega)
  have hdiv := Nat.div_add_mod (d.year * 12 + (d.month - 1) + m) 12
  omega

theorem lt_addMonths {d : Date} (h : ValidDate d) (m : Nat) (hm : 1 ≤ m) :
    d < addMonths d m := by
  rcases addMonths_ym h m hm with h1 | ⟨h1, h2⟩ <;> (rw [Date.lt_def]; omega)

theorem addMonths_twelve {d : Date} (h : ValidDate d) :
    (addMonths d 12).year = d.year + 1 ∧ (addMonths d 12).month = d.month := by
  obtain ⟨h1, h2, h3, h4, h5⟩ := h
  unfold addMonths
  dsimp only
  have hmod : (d.year * 12 + (d.month - 1) + 12) % 12 < 12 := Nat.mod_lt _ (by omega)
  have hdiv := Nat.div_add_mod (d.year * 12 + (d.month - 1) + 12) 12
  omega

theorem addMonths_three_of_month_eq_three {d : Date} (h : ValidDate d)
    (hm : (addMonths d 3).month = 3) :
    d.month = 12 ∧ (addMonths d 3).year = d.year + 1 := by
  obtain ⟨h1, h2, h3, h4, h5⟩ := h
  unfold addMonths at hm ⊢
  dsimp only at hm ⊢
  have hmod : (d.year * 12 + (d.month - 1) + 3) % 12 < 12 := Nat.mod_lt _ (by omega)
  have hdiv := Nat.div_add_mod (d.year * 12 + (d.month - 1) + 3) 12
  omega

theorem addMonths_day_le (d : Date) (m : Nat) : (addMonths d m).day ≤ d.day := by
  unfold addMonths
  dsimp only
  omega

theorem addMonths_day_ge {d : Date} (h : 28 ≤ d.day) (m : Nat) :
    28 ≤ (addMonths d m).day := by
  unfold addMonths
  dsimp only
  have := daysInMonth_ge ((d.year * 12 + (d.month - 1) + m) / 12)
    ((d.year * 12 + (d.month - 1) + m) % 12 + 1)
  omega

/-! ### The business-day adjustment loop -/

theorem isBusinessDay_iff (g : Gen) (d : Date) :
    isBusinessDay g d = true ↔ weekday d < 5 ∧ formatDate d ∉ g.holidays := by
  simp [isBusinessDay]

theorem adjustGo_ok_business {g : Gen} {fwd : Bool} {n : Nat} {d r : Date}
    (h : adjustGo g fwd n d = .ok r) : isBusinessDay g r = true := by
  induction n generalizing d with
  | zero =>
      unfold adjustGo at h
      cases hb : isBusinessDay g d <;> rw [hb] at h <;> simp at h
      rw [← h]; exact hb
  | succ n ih =>
      unfold adjustGo at h
      cases hb : isBusinessDay g d <;> rw [hb] at h <;> simp at h
      · exact ih h
      · rw [← h]; exact hb

theorem adjustGo_ok_spec {g : Gen} {fwd : Bool} {n : Nat} {d r : Date}
    (h : adjustGo g fwd n d = .ok r) :
    ∃ k, k ≤ n ∧ r = stepK fwd d k ∧ isBusinessDay g r = true ∧
      ∀ j, j < k → isBusinessDay g (stepK fwd d j) = false := by
  induction n generalizing d with
  | zero =>
      unfold adjustGo at h
      cases hb : isBusinessDay g d <;> rw [hb] at h <;> simp at h
      exact ⟨0, Nat.le_refl 0, by rw [← h]; rfl, by rw [← h]; exact hb, by omega⟩
  | succ n ih =>
      unfold adjustGo at h
      cases hb : isBusinessDay g d <;> rw [hb] at h <;> simp at h
      · obtain ⟨k, hk, hr, hbr, hmin⟩ := ih h
        refine ⟨k + 1, by omega, by rw [hr]; rfl, hbr, ?_⟩
        intro j hj
        match j with
        | 0 => exact hb
        | j + 1 => exact hmin j (by omega)
      · exact ⟨0, by omega, by rw [← h]; rfl, by rw [← h]; exact hb, by omega⟩

theorem adjustGo_complete {g : Gen} {fwd : Bool} (n k : Nat) (d : Date) (hk : k ≤ n)
    (hb : isBusinessDay g (stepK fwd d k) = true)
    (hmin : ∀ j, j < k → isBusinessDay g (stepK fwd d j) = false) :
    adjustGo g fwd n d = .ok (stepK fwd d k) := by
  induction n generalizing d k with
  | zero =>
      have hk0 : k = 0 := by omega
      subst hk0
      unfold adjustGo
      rw [show stepK fwd d 0 = d from rfl] at hb ⊢
      rw [hb]
      simp
  | succ n ih =>
      match k, hb, hmin with
      | 0, hb, _ =>
          unfold adjustGo
          rw [show stepK fwd d 0 = d from rfl] at hb ⊢
          rw [hb]
          simp
      | k + 1, hb, hmin =>
          have h0 : isBusinessDay g d = false := hmin 0 (by omega)
          unfold adjustGo
          rw [h0]
          simp only [Bool.false_eq_true, if_false]
          have hshift : stepK fwd d (k + 1) =
              stepK fwd (if fwd then succDate d else predDate d) k := rfl
          rw [hshift] at hb ⊢
          exact ih _ _ (by omega) hb (fun j hj => hmin (j + 1) (by omega))

theorem adjustGo_err_of_all {g : Gen} {fwd : Bool} (n : Nat) (d : Date)
    (h : ∀ k, k ≤ n → isBusinessDay g (stepK fwd d k) = false) :
    adjustGo g fwd n d = .err .noBusinessDay := by
  induction n generalizing d with
  | zero =>
      unfold adjustGo
      have h0 := h 0 (by omega)
      rw [show stepK fwd d 0 = d from rfl] at h0
      rw [h0]
      simp
  | succ n ih =>
      have h0 := h 0 (by omega)
      rw [show stepK fwd d 0 = d from rfl] at h0
      unfold adjustGo
      rw [h0]
      simp only [Bool.false_eq_true, if_false]
      exact ih _ (fun k hk => h (k + 1) (by omega))

theorem adjust_ok_self {g : Gen} {d : Date} {fwd : Bool} (h : isBusinessDay g d = true) :
    adjustToBusinessDay g d fwd = .ok d := by
  unfold adjustToBusinessDay adjustGo
  rw [h]
  simp

theorem adjust_fwd_ge {g : Gen} {d r : Date} (h : adjustToBusinessDay g d true = .ok r) :
    d ≤ r := by
  obtain ⟨k, _, hr, _, _⟩ := adjustGo_ok_spec h
  rw [hr, stepK_true_eq_addDays]
  exact le_addDays d k

theorem adjust_fwd_le_end {g : Gen} {a e r r2 : Date} (ha : ValidDate a) (he : ValidDate e)
    (hle : a ≤ e) (h : adjustToBusinessDay g a true = .ok r)
    (h2 : adjustToBusinessDay g e true = .ok r2) : r ≤ r2 := by
  obtain ⟨k, hk, hr, hbr, hmin⟩ := adjustGo_ok_spec h
  rw [stepK_true_eq_addDays] at hr
  by_cases hc : r ≤ e
  · exact Date.le_trans hc (adjust_fwd_ge h2)
  · have hlt : e < r := by rw [Date.le_def] at hc; rw [Date.lt_def]; omega
    have hbound : e ≤ addDays a k := by rw [← hr]; exact Date.le_of_lt hlt
    obtain ⟨j, hj, hje⟩ := exists_addDays_of_between ha he k hle hbound
    have hjk : j < k := by
      rcases Nat.lt_or_ge j k with hq | hq
      · exact hq
      · have : j = k := by omega
        rw [this, ← hr] at hje
        rw [hje] at hlt
        exact absurd hlt (Date.lt_irrefl r)
    have hcomp : adjustGo g true 10 e = .ok (addDays e (k - j)) := by
      have hstep : ∀ i, addDays e i = addDays a (j + i) := by
        intro i
        rw [hje, addDays_addDays]
      have hb2 : isBusinessDay g (stepK true e (k - j)) = true := by
        rw [stepK_true_eq_addDays, hstep, show j + (k - j) = k from by omega, ← hr]
        exact hbr
      have hm2 : ∀ i, i < k - j → isBusinessDay g (stepK true e i) = false := by
        intro i hi
        rw [stepK_true_eq_addDays, hstep]
        have := hmin (j + i) (by omega)
        rw [stepK_true_eq_addDays] at this
        exact this
      have := adjustGo_complete 10 (k - j) e (by omega) hb2 hm2
      rw [stepK_true_eq_addDays] at this
      exact this
    unfold adjustToBusinessDay at h2
    rw [hcomp] at h2
    have : addDays e (k - j) = r2 := by
      simpa using h2
    rw [← this]
    rw [hje, addDays_addDays, show j + (k - j) = k from by omega, ← hr]
    exact Date.le_refl _

/-! ### Every emitted due date is a business day -/

theorem adjust_ok_business {g : Gen} {d r : Date} {fwd : Bool}
    (h : adjustToBusinessDay g d fwd = .ok r) : isBusinessDay g r = true := by
  unfold adjustToBusinessDay at h
  exact adjustGo_ok_business h

theorem dueRes_business {g : Gen} {d r : Date} {fwd : Bool}
    (h : (if isBusinessDay g d then Res.ok d else adjustToBusinessDay g d fwd) = .ok r) :
    isBusinessDay g r = true := by
  split at h
  · rename_i hb
    have he : d = r := by simpa using h
    rw [← he]
    exact hb
  · exact adjust_ok_business h

theorem weeklyGo_business {g : Gen} {endD : Date} {cov : Dict} {fuel : Nat} {ps : Date}
    {idx : Nat} {es : List Entry} (h : weeklyGo g endD cov fuel ps idx = .ok es) :
    ∀ e ∈ es, isBusinessDay g e.due_date = true := by
  induction fuel generalizing ps idx es with
  | zero =>
      rw [show weeklyGo g endD cov 0 ps idx = Res.out from rfl] at h
      exact Res.noConfusion h
  | succ n ih =>
      rw [show weeklyGo g endD cov (n + 1) ps idx =
          weeklyStep g endD cov (weeklyGo g endD cov n) ps idx from rfl] at h
      simp only [weeklyStep] at h
      split at h
      · split at h
        · simp at h
        · simp at h
        · rename_i due heq
          split at h
          · have he : es = [] := by simpa using h.symm
            rw [he]
            simp
          · split at h
            · rename_i rest heq2
              have he : es = mkScheduleEntry cov idx due ps (addDays ps 6) :: rest := by
                simpa using h.symm
              rw [he]
              intro e hmem
              rcases List.mem_cons.mp hmem with he2 | hmem2
              · rw [he2]
                exact dueRes_business heq
              · exact ih heq2 e hmem2
            · rename_i hno
              exact absurd h (hno es)
      · have he : es = [] := by simpa using h.symm
        rw [he]
        simp

theorem dailyGo_business {g : Gen} {endD : Date} {cov : Dict} {fuel : Nat} {cur : Date}
    {idx : Nat} {es : List Entry} (h : dailyGo g endD cov fuel cur idx = .ok es) :
    ∀ e ∈ es, isBusinessDay g e.due_date = true := by
  induction fuel generalizing cur idx es with
  | zero =>
      rw [show dailyGo g endD cov 0 cur idx = Res.out from rfl] at h
      exact Res.noConfusion h
  | succ n ih =>
      rw [show dailyGo g endD cov (n + 1) cur idx =
          dailyStep g endD cov (dailyGo g endD cov n) cur idx from rfl] at h
      simp only [dailyStep] at h
      split at h
      · split at h
        · split at h
          · simp at h
          · simp at h
          · rename_i due heq
            split at h
            · have he : es = [] := by simpa using h.symm
              rw [he]
              simp
            · split at h
              · rename_i rest heq2
                have he : es = mkScheduleEntry cov idx due cur cur :: rest := by
                  simpa using h.symm
                rw [he]
                intro e hmem
                rcases List.mem_cons.mp hmem with he2 | hmem2
                · rw [he2]
                  exact adjust_ok_business heq
                · exact ih heq2 e hmem2
              · rename_i hno
                exact absurd h (hno es)
        · exact ih h
      · have he : es = [] := by simpa using h.symm
        rw [he]
        simp

theorem periodicExtra_business {g : Gen} {endD : Date} {cov : Dict} {np ps : Date}
    {idx : Nat} {extras : List Entry} {idx1 : Nat}
    (h : periodicExtra g endD cov np ps idx = .ok (extras, idx1)) :
    ∀ e ∈ extras, isBusinessDay g e.due_date = true := by
  simp only [periodicExtra] at h
  split at h
  · simp at h
  · simp at h
  · rename_i feb heq
    split at h
    · have hpair : extras = [mkScheduleEntry cov idx feb ps feb] ∧ idx1 = idx + 1 := by
        simpa using h.symm
      rw [hpair.1]
      intro e hmem
      rcases List.mem_cons.mp hmem with he2 | hmem2
      · rw [he2]
        exact dueRes_business heq
      · simp at hmem2
    · have hpair : extras = [] ∧ idx1 = idx := by simpa using h.symm
      rw [hpair.1]
      simp

theorem extrasIf_business {g : Gen} {endD : Date} {cov : Dict} {np ps : Date}
    {idx : Nat} {extras : List Entry} {idx1 : Nat} {c : Prop} [Decidable c]
    (h : (if c then periodicExtra g endD cov np ps idx
          else (.ok ([], idx) : Res (List Entry × Nat))) = .ok (extras, idx1)) :
    ∀ e ∈ extras, isBusinessDay g e.due_date = true := by
  split at h
  · exact periodicExtra_business h
  · have hpair : extras = [] ∧ idx1 = idx := by simpa using h.symm
    rw [hpair.1]
    simp

theorem periodicGo_business {g : Gen} {startD endD : Date} {cov : Dict} {months : Nat}
    {origDay : Nat} {isMonthEnd : Bool} {fuel : Nat} {ps : Date} {idx : Nat} {es : List Entry}
    (h : periodicGo g startD endD cov months origDay isMonthEnd fuel ps idx = .ok es) :
    ∀ e ∈ es, isBusinessDay g e.due_date = true := by
  induction fuel generalizing ps idx es with
  | zero =>
      rw [show periodicGo g startD endD cov months origDay isMonthEnd 0 ps idx = Res.out
          from rfl] at h
      exact Res.noConfusion h
  | succ n ih =>
      rw [show periodicGo g startD endD cov months origDay isMonthEnd (n + 1) ps idx =
          periodicStep g startD endD cov months origDay isMonthEnd
            (periodicGo g startD endD cov months origDay isMonthEnd n) ps idx from rfl] at h
      simp only [periodicStep] at h
      split at h
      · simp at h
      · simp at h
      · rename_i extras idx1 heq0
        have hex := extrasIf_business heq0
        split at h
        · have he : es = extras := by simpa using h.symm
          rw [he]
          exact hex
        · split at h
          · simp at h
          · simp at h
          · rename_i due heq
            split at h
            · rename_i rest heq2
              have he : es = extras ++
                  mkScheduleEntry cov idx1 due ps (predDate (addMonths ps months)) :: rest := by
                simpa using h.symm
              rw [he]
              intro e hmem
              rcases List.mem_append.mp hmem with hm1 | hm2
              · exact hex e hm1
              · rcases List.mem_cons.mp hm2 with he2 | hmem2
                · rw [he2]
                  exact dueRes_business heq
                · exact ih heq2 e hmem2
            · rename_i hno
              exact absurd h (hno es)

theorem genForCovenant_business {g : Gen} {startD endD : Date} {cov : Dict} {fuel : Nat}
    {es : List Entry} (h : genForCovenant g startD endD cov fuel = .ok es) :
    ∀ e ∈ es, isBusinessDay g e.due_date = true := by
  simp only [genForCovenant] at h
  split at h
  · have he : es = [] := by simpa using h.symm
    rw [he]; simp
  · split at h
    · have he : es = [] := by simpa using h.symm
      rw [he]; simp
    · split at h
      · have he : es = [] := by simpa using h.symm
        rw [he]; simp
      · split at h
        · exact dailyGo_business h
        · split at h
          · exact weeklyGo_business h
          · split at h
            · exact periodicGo_business h
            · split at h
              · exact periodicGo_business h
              · split at h
                · exact periodicGo_business h
                · simp at h

theorem generateGo_business {g : Gen} {startD endD : Date} {txid : String} {fuel : Nat}
    {covs : List Dict} {seen : List String} {es : List Entry}
    (h : generateGo g startD endD txid fuel covs seen = .ok es) :
    ∀ e ∈ es, isBusinessDay g e.due_date = true := by
  induction covs generalizing seen es with
  | nil =>
      have he : es = [] := by
        rw [show generateGo g startD endD txid fuel [] seen = .ok [] from rfl] at h
        simpa using h.symm
      rw [he]; simp
  | cons cov rest ih =>
      rw [show generateGo g startD endD txid fuel (cov :: rest) seen =
          generateStep g startD endD txid fuel cov
            (generateGo g startD endD txid fuel rest) seen from rfl] at h
      simp only [generateStep] at h
      split at h
      · simp at h
      · simp at h
      · split at h
        · simp at h
        · split at h
          · simp at h
          · split at h
            · simp at h
            · simp at h
            · rename_i a heqa
              split at h
              · rename_i b heqb
                have he : es = a ++ b := by simpa using h.symm
                rw [he]
                intro e hmem
                rcases List.mem_append.mp hmem with hm1 | hm2
                · exact genForCovenant_business heqa e hm1
                · exact ih heqb e hm2
              · rename_i hno
                exact absurd h (hno es)

/-- C2: every schedule entry emitted by a normally returning
`generateSchedules` call has a due date that is a Monday-to-Friday
weekday and is not a member of the configured holiday set; when the
bounded adjustment search is exhausted the run raises (returns
`.err .noBusinessDay`) instead of emitting an entry, so no emitted entry
escapes the invariant. -/
theorem c2_due_dates_are_business_days {g : Gen} {t : Dict} {covs : List Dict} {fuel : Nat}
    {es : List Entry} (h : generateSchedules g t covs fuel = .ok es) :
    ∀ e ∈ es, weekday e.due_date < 5 ∧ formatDate e.due_date ∉ g.holidays := by
  unfold generateSchedules at h
  split at h
  · simp at h
  · simp at h
  · intro e hmem
    exact (isBusinessDay_iff g e.due_date).mp (generateGo_business h e hmem)

/-- Witness for C2 at the transaction 2025-01-01 → 2025-03-15 with two
monthly covenants: the first emitted due date 2025-02-03 (the Monday
after Saturday 2025-02-01) is a weekday outside the empty holiday set. -/
theorem c2_due_dates_are_business_days_witness :
    weekday ⟨2025, 2, 3⟩ < 5 ∧ formatDate ⟨2025, 2, 3⟩ ∉ gFwd.holidays := by
  have h := c2_due_dates_are_business_days
    (show generateSchedules gFwd txP [covP1, covP2] 20 = .ok entriesP from by decide)
    ⟨"SCH-COV-1-001", "COV-1", ⟨2025, 2, 3⟩, "pending", ⟨2025, 1, 1⟩, ⟨2025, 1, 31⟩⟩
    (by decide)
  exact h

/-- C8: `_adjust_to_business_day` returns its argument unchanged when it
is already a business day; otherwise it steps one day at a time in the
configured direction and returns the first business day reached; it
raises the runtime error exactly when the date itself and all 10 stepped
dates fail the business-day test; consequently it is idempotent. -/
theorem c8_adjust_to_business_day_spec (g : Gen) (d : Date) (fwd : Bool) :
    (isBusinessDay g d = true → adjustToBusinessDay g d fwd = .ok d) ∧
    (∀ r, adjustToBusinessDay g d fwd = .ok r →
      ∃ k, k ≤ 10 ∧ r = stepK fwd d k ∧ isBusinessDay g r = true ∧
        ∀ j, j < k → isBusinessDay g (stepK fwd d j) = false) ∧
    ((∀ k, k ≤ 10 → isBusinessDay g (stepK fwd d k) = false) →
      adjustToBusinessDay g d fwd = .err .noBusinessDay) ∧
    (∀ r, adjustToBusinessDay g d fwd = .ok r → adjustToBusinessDay g r fwd = .ok r) :=
  ⟨fun hb => adjust_ok_self hb,
   fun _ h => adjustGo_ok_spec h,
   fun hall => adjustGo_err_of_all 10 d hall,
   fun _ h => adjust_ok_self (adjustGo_ok_business h)⟩

/-- Witness for C8: adjusting Saturday 2025-01-04 forward lands on Monday
2025-01-06, and adjusting the result again returns it unchanged
(idempotence), by the theorem applied at this concrete input. -/
theorem c8_adjust_to_business_day_spec_witness :
    adjustToBusinessDay gFwd ⟨2025, 1, 4⟩ true = .ok ⟨2025, 1, 6⟩ ∧
    adjustToBusinessDay gFwd ⟨2025, 1, 6⟩ true = .ok ⟨2025, 1, 6⟩ := by
  have h := (c8_adjust_to_business_day_spec gFwd ⟨2025, 1, 4⟩ true).2.2.2
    ⟨2025, 1, 6⟩ (by decide)
  exact ⟨by decide, h⟩

/-- The feasibility gate of `generate_schedules`: a frequency whose
minimum span exceeds the transaction duration is skipped with zero
entries. -/
theorem genForCovenant_skip {g : Gen} {s e : Date} {cov : Dict} {fuel : Nat}
    (hfreq : (strLower (dstr cov "frequency") = "annually" ∧ toOrdinal e - toOrdinal s < 365) ∨
             (strLower (dstr cov "frequency") = "quarterly" ∧ toOrdinal e - toOrdinal s < 90) ∨
             (strLower (dstr cov "frequency") = "monthly" ∧ toOrdinal e - toOrdinal s < 28)) :
    genForCovenant g s e cov fuel = .ok [] := by
  unfold genForCovenant
  rcases hfreq with ⟨hf, hd⟩ | ⟨hf, hd⟩ | ⟨hf, hd⟩
  · rw [if_pos ⟨hf, hd⟩]
  · rw [if_neg (fun hc => by rw [hf] at hc; exact absurd hc.1 (by decide)),
      if_pos ⟨hf, hd⟩]
  · rw [if_neg (fun hc => by rw [hf] at hc; exact absurd hc.1 (by decide)),
      if_neg (fun hc => by rw [hf] at hc; exact absurd hc.1 (by decide)),
      if_pos ⟨hf, hd⟩]

/-- C7: for a valid transaction and a valid covenant of the same
transaction, a frequency that cannot fit the duration — annually with
fewer than 365 days, quarterly with fewer than 90, monthly with fewer
than 28 — produces zero entries and raises no error: the call returns
normally with the empty list (silent skip). -/
theorem c7_feasibility_gate_skips {g : Gen} {t : Dict} {cov : Dict} {fuel : Nat} {s e : Date}
    (hv : validateTransaction t = .ok (s, e))
    (hc : validateCovenant cov = .ok ())
    (htx : dstr cov "transaction_id" = dstr t "transaction_id")
    (hfreq : (strLower (dstr cov "frequency") = "annually" ∧ toOrdinal e - toOrdinal s < 365) ∨
             (strLower (dstr cov "frequency") = "quarterly" ∧ toOrdinal e - toOrdinal s < 90) ∨
             (strLower (dstr cov "frequency") = "monthly" ∧ toOrdinal e - toOrdinal s < 28)) :
    generateSchedules g t [cov] fuel = .ok [] := by
  unfold generateSchedules
  rw [hv]
  dsimp only
  rw [show generateGo g s e (dstr t "transaction_id") fuel [cov] [] =
      generateStep g s e (dstr t "transaction_id") fuel cov
        (generateGo g s e (dstr t "transaction_id") fuel []) [] from rfl]
  simp only [generateStep]
  rw [hc]
  rw [if_neg (fun hne => hne htx)]
  rw [if_neg (by simp)]
  rw [genForCovenant_skip hfreq]
  rfl

/-- Witness for C7: a transaction spanning one single day with a monthly
covenant yields zero entries and no error. -/
theorem c7_feasibility_gate_skips_witness :
    generateSchedules gFwd txOneDay [covM6] 5 = .ok [] :=
  c7_feasibility_gate_skips (s := ⟨2025, 1, 1⟩) (e := ⟨2025, 1, 2⟩)
    (by decide) (by decide) (by decide)
    (Or.inr (Or.inr ⟨by decide, by decide⟩))

/-! ### Validation facts -/

theorem parseDate_valid {str : String} {d : Date} (h : parseDate str = some d) :
    ValidDate d := by
  unfold parseDate at h
  split at h
  · split at h
    · dsimp only at h
      split at h
      · rename_i hrange
        have hd : d = ⟨_, _, _⟩ := (Option.some.injEq _ _).mp h.symm
        rw [hd]
        exact ⟨hrange.1, hrange.2.1, hrange.2.2.1, hrange.2.2.2.1, hrange.2.2.2.2⟩
      · simp at h
    · simp at h
  · simp at h

theorem validateTransaction_facts {t : Dict} {s e : Date}
    (h : validateTransaction t = .ok (s, e)) : ValidDate s ∧ ValidDate e ∧ s ≤ e := by
  unfold validateTransaction at h
  split at h
  · simp at h
  · split at h
    · simp at h
    · rename_i s0 hs0
      split at h
      · simp at h
      · rename_i e0 he0
        split at h
        · rename_i hle
          have hp : s0 = s ∧ e0 = e := by simpa using h
          rw [← hp.1, ← hp.2]
          exact ⟨parseDate_valid hs0, parseDate_valid he0, hle⟩
        · simp at h

/-! ### C9: an all-holiday range produces no daily entries -/

theorem dailyGo_all_holiday {g : Gen} {endD : Date} {cov : Dict} {s : Date}
    (hs : ValidDate s) (he : ValidDate endD)
    (hhol : ∀ k, k < toOrdinal endD - toOrdinal s → formatDate (addDays s k) ∈ g.holidays) :
    ∀ fuel j idx, toOrdinal endD - toOrdinal s - j + 1 ≤ fuel →
      dailyGo g endD cov fuel (addDays s j) idx = .ok [] := by
  intro fuel
  induction fuel with
  | zero => intro j idx hf; omega
  | succ n ih =>
      intro j idx hf
      rw [show dailyGo g endD cov (n + 1) (addDays s j) idx =
          dailyStep g endD cov (dailyGo g endD cov n) (addDays s j) idx from rfl]
      simp only [dailyStep]
      by_cases hlt : addDays s j < endD
      · rw [if_pos hlt]
        have hj : j < toOrdinal endD - toOrdinal s := by
          have h1 := toOrdinal_lt_of_lt (validDate_addDays hs j) he hlt
          rw [toOrdinal_addDays hs] at h1
          omega
        have hb : isBusinessDay g (addDays s j) = false := by
          have hin := hhol j hj
          unfold isBusinessDay
          simp [hin]
        rw [hb]
        simp only [Bool.false_eq_true, if_false]
        rw [addDays_addDays s j 1]
        exact ih (j + 1) idx (by omega)
      · rw [if_neg hlt]

/-- C9: when every calendar day in `[start_date, end_date)` lies in the
holiday set, generation for a daily covenant returns zero entries and
terminates normally — in particular the 10-step search-exhaustion error
is never raised, because a due-date adjustment is only attempted from
days that are themselves business days. -/
theorem c9_all_holiday_daily_zero_entries {g : Gen} {t : Dict} {cov : Dict} {fuel : Nat}
    {s e : Date}
    (hv : validateTransaction t = .ok (s, e))
    (hc : validateCovenant cov = .ok ())
    (htx : dstr cov "transaction_id" = dstr t "transaction_id")
    (hfreq : strLower (dstr cov "frequency") = "daily")
    (hhol : ∀ k, k < toOrdinal e - toOrdinal s → formatDate (addDays s k) ∈ g.holidays)
    (hfuel : toOrdinal e - toOrdinal s + 1 ≤ fuel) :
    generateSchedules g t [cov] fuel = .ok [] := by
  obtain ⟨hvs, hve, _⟩ := validateTransaction_facts hv
  have hgen : genForCovenant g s e cov fuel = .ok [] := by
    unfold genForCovenant
    rw [if_neg (fun hcond => by rw [hfreq] at hcond; exact absurd hcond.1 (by decide)),
      if_neg (fun hcond => by rw [hfreq] at hcond; exact absurd hcond.1 (by decide)),
      if_neg (fun hcond => by rw [hfreq] at hcond; exact absurd hcond.1 (by decide)),
      if_pos hfreq]
    unfold dailySchedules
    have hall := @dailyGo_all_holiday g e cov s hvs hve hhol fuel 0 1 (by omega)
    rw [show addDays s 0 = s from rfl] at hall
    exact hall
  unfold generateSchedules
  rw [hv]
  dsimp only
  rw [show generateGo g s e (dstr t "transaction_id") fuel [cov] [] =
      generateStep g s e (dstr t "transaction_id") fuel cov
        (generateGo g s e (dstr t "transaction_id") fuel []) [] from rfl]
  simp only [generateStep]
  rw [hc]
  rw [if_neg (fun hne => hne htx)]
  rw [if_neg (by simp)]
  rw [hgen]
  rfl

/-- Witness for C9: every day of January 2025 marked a holiday, with the
transaction 2025-01-01 → 2025-01-31 and a daily covenant: zero entries,
normal termination. -/
theorem c9_all_holiday_daily_zero_entries_witness :
    generateSchedules gJanHol txJan [covD] 40 = .ok [] :=
  c9_all_holiday_daily_zero_entries (s := ⟨2025, 1, 1⟩) (e := ⟨2025, 1, 31⟩)
    (by decide) (by decide) (by decide) (by decide) (by decide) (by decide)

/-! ### C4: an invalid covenant means no normal return -/

theorem generateGo_invalid {g : Gen} {startD endD : Date} {txid : String} {fuel : Nat}
    {covs : List Dict} {c : Dict} {er : GenErr} (hm : c ∈ covs)
    (hc : validateCovenant c = .err er) :
    ∀ seen, (generateGo g startD endD txid fuel covs seen).isOk = false := by
  induction covs with
  | nil => simp at hm
  | cons cov rest ih =>
      intro seen
      rw [show generateGo g startD endD txid fuel (cov :: rest) seen =
          generateStep g startD endD txid fuel cov
            (generateGo g startD endD txid fuel rest) seen from rfl]
      rcases List.mem_cons.mp hm with he | hm2
      · rw [he] at hc
        simp only [generateStep]
        rw [hc]
        rfl
      · simp only [generateStep]
        split
        · rfl
        · rfl
        · split
          · rfl
          · split
            · rfl
            · split
              · rfl
              · rfl
              · cases hrec : generateGo g startD endD txid fuel rest
                    (dstr cov "covenant_id" :: seen) with
                | ok b =>
                    have hih := ih hm2 (dstr cov "covenant_id" :: seen)
                    rw [hrec] at hih
                    exact absurd hih (by simp [Res.isOk])
                | err e2 => rfl
                | out => rfl

/-- C4 (amended): if any covenant in the batch fails validation, then
`generate_schedules` never returns a schedule list — no partial output is
ever handed back; the run ends in a raised error (or exhausts the
embedding fuel). The error is not necessarily the typed validation error
for the invalid covenant, because validation is interleaved with
generation (see the counterexample). -/
theorem c4_invalid_covenant_no_output {g : Gen} {t : Dict} {covs : List Dict} {fuel : Nat}
    {c : Dict} {er : GenErr} (hm : c ∈ covs) (hc : validateCovenant c = .err er) :
    (generateSchedules g t covs fuel).isOk = false := by
  unfold generateSchedules
  split
  · rfl
  · rfl
  · exact generateGo_invalid hm hc []

/-- Witness for C4: a single covenant with frequency `biweekly` aborts the
call with no output. -/
theorem c4_invalid_covenant_no_output_witness :
    (generateSchedules gFwd txW [covBad] 5).isOk = false :=
  @c4_invalid_covenant_no_output gFwd txW [covBad] 5 covBad (.covBadFreq "biweekly")
    (by decide) (by decide)

/-- Counterexample for C4 as stated: in the batch `[covW, covBad]` the
covenant `covBad` fails validation (typed error naming the offending
frequency value `biweekly`), yet the call raises the business-day
search-exhaustion `RuntimeError` coming from the earlier covenant's
generation — not a typed validation error naming the offending field —
because validation is interleaved with generation rather than performed
eagerly before any schedule is computed. -/
theorem c4_eager_validation_counterexample :
    generateSchedules gBlanket txW [covW, covBad] 10 = .err .noBusinessDay ∧
    validateCovenant covBad = .err (.covBadFreq "biweekly") ∧
    covBad ∈ [covW, covBad] :=
  ⟨by decide, by decide, by decide⟩

/-- C5: the transaction 2025-03-31 → 2026-03-31 with one quarterly
month-end-anchored covenant and an empty holiday set emits exactly the
business-day adjustments of 2025-06-30, 2025-09-30, 2025-12-31,
2026-02-28 and 2026-03-31 (the February date, a Saturday, adjusts to
2026-03-02; the others are already business days); the extra February
entry (index 004) is emitted before the regular entry of its period
(index 005) and its period runs from its period start to its own
February due date. -/
theorem c5_quarterly_month_end_scenario :
    generateSchedules gFwd txQ [covQ] 20 = .ok entriesQ ∧
    entriesQ.map (fun e => e.due_date) =
      [⟨2025, 6, 30⟩, ⟨2025, 9, 30⟩, ⟨2025, 12, 31⟩, ⟨2026, 3, 2⟩, ⟨2026, 3, 31⟩] ∧
    (adjustToBusinessDay gFwd ⟨2025, 6, 30⟩ true = .ok ⟨2025, 6, 30⟩ ∧
     adjustToBusinessDay gFwd ⟨2025, 9, 30⟩ true = .ok ⟨2025, 9, 30⟩ ∧
     adjustToBusinessDay gFwd ⟨2025, 12, 31⟩ true = .ok ⟨2025, 12, 31⟩ ∧
     adjustToBusinessDay gFwd ⟨2026, 2, 28⟩ true = .ok ⟨2026, 3, 2⟩ ∧
     adjustToBusinessDay gFwd ⟨2026, 3, 31⟩ true = .ok ⟨2026, 3, 31⟩) ∧
    (entriesQ.get? 3).map (fun e => (e.schedule_id, e.period_start, e.period_end, e.due_date)) =
      some ("SCH-COV-Q-004", ⟨2025, 12, 30⟩, ⟨2026, 3, 2⟩, ⟨2026, 3, 2⟩) ∧
    (entriesQ.get? 4).map (fun e => e.schedule_id) = some "SCH-COV-Q-005" := by
  decide

/-- Counterexample for C6 as stated: the annual leap scenario
2024-02-29 → 2028-02-28 emits three entries, but their due dates are not
2025-02-28, 2026-02-28 and 2027-02-28: the second and third fall on a
Saturday and a Sunday and are emitted business-day adjusted as
2026-03-02 and 2027-03-01. -/
theorem c6_unadjusted_dates_counterexample :
    generateSchedules gFwd txA [covA] 20 = .ok entriesA ∧
    entriesA.map (fun e => e.due_date) ≠ [⟨2025, 2, 28⟩, ⟨2026, 2, 28⟩, ⟨2027, 2, 28⟩] := by
  decide

/-- C6 (amended): the annual leap scenario emits exactly three entries
whose due dates are the business-day adjustments of the computed
anniversaries — 2025-02-28 (a Friday, unchanged), 2026-02-28 (Saturday,
adjusted to 2026-03-02) and 2027-02-28 (Sunday, adjusted to 2027-03-01) —
and no 2028 entry: 2028 is a leap year, so the computed 2028 due date is
2028-02-29, which exceeds the end date 2028-02-28 and stops the loop. -/
theorem c6_annual_leap_scenario_adjusted :
    generateSchedules gFwd txA [covA] 20 = .ok entriesA ∧
    entriesA.length = 3 ∧
    entriesA.map (fun e => e.due_date) = [⟨2025, 2, 28⟩, ⟨2026, 3, 2⟩, ⟨2027, 3, 1⟩] ∧
    adjustToBusinessDay gFwd ⟨2026, 2, 28⟩ true = .ok ⟨2026, 3, 2⟩ ∧
    adjustToBusinessDay gFwd ⟨2027, 2, 28⟩ true = .ok ⟨2027, 3, 1⟩ ∧
    isLeap 2028 = true ∧
    periodicDue ⟨2024, 2, 29⟩ (addMonths ⟨2027, 2, 28⟩ 12) 12 29 true = ⟨2028, 2, 29⟩ ∧
    ((⟨2028, 2, 28⟩ : Date) < ⟨2028, 2, 29⟩) := by
  decide

/-! ### C1: due dates stay within the (adjusted) transaction window -/

theorem dueRes_fwd_ge {g : Gen} {d r : Date} (hfwd : g.adjForward = true)
    (h : (if isBusinessDay g d then Res.ok d else adjustToBusinessDay g d g.adjForward) = .ok r) :
    d ≤ r := by
  split at h
  · have he : d = r := by simpa using h
    rw [← he]
    exact Date.le_refl d
  · rw [hfwd] at h
    exact adjust_fwd_ge h

theorem due_le_adjust_end {g : Gen} {due e r : Date} (hle : due ≤ e)
    (h2 : adjustToBusinessDay g e true = .ok r) : due ≤ r :=
  Date.le_trans hle (adjust_fwd_ge h2)

theorem weeklyGo_bounds {g : Gen} {endD : Date} {cov : Dict} {fuel : Nat} {ps : Date}
    {idx : Nat} {es : List Entry} {s : Date} (hfwd : g.adjForward = true) (hs : s ≤ ps)
    (h : weeklyGo g endD cov fuel ps idx = .ok es) :
    ∀ ent ∈ es, s ≤ ent.due_date ∧
      ∀ r, adjustToBusinessDay g endD true = .ok r → ent.due_date ≤ r := by
  induction fuel generalizing ps idx es with
  | zero =>
      rw [show weeklyGo g endD cov 0 ps idx = Res.out from rfl] at h
      exact Res.noConfusion h
  | succ n ih =>
      rw [show weeklyGo g endD cov (n + 1) ps idx =
          weeklyStep g endD cov (weeklyGo g endD cov n) ps idx from rfl] at h
      simp only [weeklyStep] at h
      split at h
      · split at h
        · simp at h
        · simp at h
        · rename_i due heq
          split at h
          · have he : es = [] := by simpa using h.symm
            rw [he]
            simp
          · rename_i hnlt
            have hle1 : due ≤ endD := Date.not_lt.mp hnlt
            split at h
            · rename_i rest heq2
              have he : es = mkScheduleEntry cov idx due ps (addDays ps 6) :: rest := by
                simpa using h.symm
              rw [he]
              intro ent hmem
              rcases List.mem_cons.mp hmem with he2 | hmem2
              · rw [he2]
                refine ⟨?_, ?_⟩
                · exact Date.le_trans (Date.le_trans hs (le_addDays ps 7))
                    (dueRes_fwd_ge hfwd heq)
                · intro r hr
                  exact due_le_adjust_end hle1 hr
              · exact ih (Date.le_trans hs (le_addDays ps 7)) heq2 ent hmem2
            · rename_i hno
              exact absurd h (hno es)
      · have he : es = [] := by simpa using h.symm
        rw [he]
        simp

theorem dailyGo_bounds {g : Gen} {endD : Date} {cov : Dict} {fuel : Nat} {cur : Date}
    {idx : Nat} {es : List Entry} {s : Date} (hfwd : g.adjForward = true) (hs : s ≤ cur)
    (h : dailyGo g endD cov fuel cur idx = .ok es) :
    ∀ ent ∈ es, s ≤ ent.due_date ∧
      ∀ r, adjustToBusinessDay g endD true = .ok r → ent.due_date ≤ r := by
  induction fuel generalizing cur idx es with
  | zero =>
      rw [show dailyGo g endD cov 0 cur idx = Res.out from rfl] at h
      exact Res.noConfusion h
  | succ n ih =>
      rw [show dailyGo g endD cov (n + 1) cur idx =
          dailyStep g endD cov (dailyGo g endD cov n) cur idx from rfl] at h
      simp only [dailyStep] at h
      split at h
      · split at h
        · split at h
          · simp at h
          · simp at h
          · rename_i due heq
            rw [hfwd] at heq
            split at h
            · have he : es = [] := by simpa using h.symm
              rw [he]
              simp
            · rename_i hnlt
              have hle1 : due ≤ endD := Date.not_lt.mp hnlt
              split at h
              · rename_i rest heq2
                have he : es = mkScheduleEntry cov idx due cur cur :: rest := by
                  simpa using h.symm
                rw [he]
                intro ent hmem
                rcases List.mem_cons.mp hmem with he2 | hmem2
                · rw [he2]
                  refine ⟨?_, ?_⟩
                  · exact Date.le_trans (Date.le_trans hs (le_addDays cur 1))
                      (adjust_fwd_ge heq)
                  · intro r hr
                    exact due_le_adjust_end hle1 hr
                · exact ih (Date.le_trans hs (le_addDays cur 1)) heq2 ent hmem2
              · rename_i hno
                exact absurd h (hno es)
        · exact ih (Date.le_trans hs (le_addDays cur 1)) h
      · have he : es = [] := by simpa using h.symm
        rw [he]
        simp

theorem febEnd_gt {ps : Date} (hvP : ValidDate ps)
    (hnp3 : (addMonths ps 3).month = 3) : ps < febEnd (addMonths ps 3) := by
  obtain ⟨h12, hyear⟩ := addMonths_three_of_month_eq_three hvP hnp3
  unfold febEnd
  rw [Date.lt_def]
  dsimp only
  omega

theorem extrasIf_bounds {g : Gen} {endD : Date} {cov : Dict} {ps : Date} {s : Date}
    {months : Nat} {isMonthEnd : Bool} {idx : Nat} {extras : List Entry} {idx1 : Nat}
    (hfwd : g.adjForward = true) (hvP : ValidDate ps) (hs : s ≤ ps)
    (h : (if months = 3 ∧ isMonthEnd = true ∧ (addMonths ps months).month = 3 then
            periodicExtra g endD cov (addMonths ps months) ps idx
          else (.ok ([], idx) : Res (List Entry × Nat))) = .ok (extras, idx1)) :
    ∀ ent ∈ extras, s ≤ ent.due_date ∧
      ∀ r, adjustToBusinessDay g endD true = .ok r → ent.due_date ≤ r := by
  split at h
  · rename_i hcond
    obtain ⟨hm3, _, hnp3⟩ := hcond
    subst hm3
    simp only [periodicExtra] at h
    split at h
    · simp at h
    · simp at h
    · rename_i feb heq
      split at h
      · rename_i hfe
        have hpair : extras = [mkScheduleEntry cov idx feb ps feb] ∧ idx1 = idx + 1 := by
          simpa using h.symm
        rw [hpair.1]
        intro ent hmem
        rcases List.mem_cons.mp hmem with he2 | hmem2
        · rw [he2]
          refine ⟨?_, ?_⟩
          · exact Date.le_trans hs (Date.le_trans (Date.le_of_lt (febEnd_gt hvP hnp3))
              (dueRes_fwd_ge hfwd heq))
          · intro r hr
            exact due_le_adjust_end hfe hr
        · simp at hmem2
      · have hpair : extras = [] ∧ idx1 = idx := by simpa using h.symm
        rw [hpair.1]
        simp
  · have hpair : extras = [] ∧ idx1 = idx := by simpa using h.symm
    rw [hpair.1]
    simp

theorem periodicDue_valid {startD np : Date} {months origDay : Nat} {isMonthEnd : Bool}
    (hvNp : ValidDate np) (ho : 1 ≤ origDay) :
    ValidDate (periodicDue startD np months origDay isMonthEnd) := by
  obtain ⟨h1, h2, h3, h4, h5⟩ := hvNp
  have hge2 := daysInMonth_ge np.year 2
  have hgem := daysInMonth_ge np.year np.month
  have hdim2 : daysInMonth np.year 2 = if isLeap np.year then 29 else 28 := rfl
  unfold periodicDue periodicDue0 ValidDate
  split
  · split
    · rename_i hL
      rw [hL] at hdim2
      simp only [if_pos] at hdim2
      dsimp only
      omega
    · dsimp only
      omega
  · split
    · dsimp only
      omega
    · split
      · dsimp only
        omega
      · dsimp only
        omega

theorem lt_periodicDue {startD ps : Date} {months origDay : Nat} {isMonthEnd : Bool}
    (hvP : ValidDate ps) (hm : 1 ≤ months) :
    ps < periodicDue startD (addMonths ps months) months origDay isMonthEnd := by
  have hym := addMonths_ym hvP months hm
  unfold periodicDue periodicDue0
  split
  · rename_i hcond
    have ht := addMonths_twelve hvP
    rw [hcond.1] at *
    split <;> (rw [Date.lt_def]; dsimp only; omega)
  · split
    · rw [Date.lt_def]; dsimp only; omega
    · split
      · rw [Date.lt_def]; dsimp only; omega
      · rw [Date.lt_def]; dsimp only; omega

theorem periodicGo_bounds {g : Gen} {startD endD : Date} {cov : Dict} {months origDay : Nat}
    {isMonthEnd : Bool} {fuel : Nat} {ps : Date} {idx : Nat} {es : List Entry} {s : Date}
    (hfwd : g.adjForward = true) (hvE : ValidDate endD) (hm : 1 ≤ months) (ho : 1 ≤ origDay)
    (hvP : ValidDate ps) (hs : s ≤ ps)
    (h : periodicGo g startD endD cov months origDay isMonthEnd fuel ps idx = .ok es) :
    ∀ ent ∈ es, s ≤ ent.due_date ∧
      ∀ r, adjustToBusinessDay g endD true = .ok r → ent.due_date ≤ r := by
  induction fuel generalizing ps idx es with
  | zero =>
      rw [show periodicGo g startD endD cov months origDay isMonthEnd 0 ps idx = Res.out
          from rfl] at h
      exact Res.noConfusion h
  | succ n ih =>
      rw [show periodicGo g startD endD cov months origDay isMonthEnd (n + 1) ps idx =
          periodicStep g startD endD cov months origDay isMonthEnd
            (periodicGo g startD endD cov months origDay isMonthEnd n) ps idx from rfl] at h
      simp only [periodicStep] at h
      split at h
      · simp at h
      · simp at h
      · rename_i extras idx1 heq0
        have hex := extrasIf_bounds hfwd hvP hs heq0
        split at h
        · have he : es = extras := by simpa using h.symm
          rw [he]
          exact hex
        · rename_i hnlt
          have hle1 : periodicDue startD (addMonths ps months) months origDay isMonthEnd ≤
              endD := Date.not_lt.mp hnlt
          split at h
          · simp at h
          · simp at h
          · rename_i due heq
            split at h
            · rename_i rest heq2
              have he : es = extras ++
                  mkScheduleEntry cov idx1 due ps (predDate (addMonths ps months)) :: rest := by
                simpa using h.symm
              rw [he]
              intro ent hmem
              rcases List.mem_append.mp hmem with hm1 | hm2
              · exact hex ent hm1
              · rcases List.mem_cons.mp hm2 with he2 | hmem2
                · rw [he2]
                  refine ⟨?_, ?_⟩
                  · exact Date.le_trans hs (Date.le_trans
                      (Date.le_of_lt (lt_periodicDue hvP hm)) (dueRes_fwd_ge hfwd heq))
                  · intro r hr
                    split at heq
                    · have he3 : periodicDue startD (addMonths ps months) months origDay
                          isMonthEnd = due := by simpa using heq
                      rw [← he3]
                      exact due_le_adjust_end hle1 hr
                    · rw [hfwd] at heq
                      exact adjust_fwd_le_end
                        (periodicDue_valid (validDate_addMonths hvP months) ho) hvE hle1 heq hr
                · exact ih (validDate_addMonths hvP months)
                    (Date.le_trans hs (Date.le_of_lt (lt_addMonths hvP months hm)))
                    heq2 ent hmem2
            · rename_i hno
              exact absurd h (hno es)

theorem genForCovenant_bounds {g : Gen} {s e : Date} {cov : Dict} {fuel : Nat}
    {es : List Entry} (hfwd : g.adjForward = true) (hvS : ValidDate s) (hvE : ValidDate e)
    (h : genForCovenant g s e cov fuel = .ok es) :
    ∀ ent ∈ es, s ≤ ent.due_date ∧
      ∀ r, adjustToBusinessDay g e true = .ok r → ent.due_date ≤ r := by
  simp only [genForCovenant] at h
  split at h
  · have he : es = [] := by simpa using h.symm
    rw [he]; simp
  · split at h
    · have he : es = [] := by simpa using h.symm
      rw [he]; simp
    · split at h
      · have he : es = [] := by simpa using h.symm
        rw [he]; simp
      · split at h
        · exact dailyGo_bounds hfwd (Date.le_refl s) h
        · split at h
          · exact weeklyGo_bounds hfwd (Date.le_refl s) h
          · split at h
            · exact periodicGo_bounds hfwd hvE (by omega) hvS.2.2.2.1 hvS (Date.le_refl s) h
            · split at h
              · exact periodicGo_bounds hfwd hvE (by omega) hvS.2.2.2.1 hvS (Date.le_refl s) h
              · split at h
                · exact periodicGo_bounds hfwd hvE (by omega) hvS.2.2.2.1 hvS (Date.le_refl s) h
                · simp at h

theorem generateGo_bounds {g : Gen} {s e : Date} {txid : String} {fuel : Nat}
    {covs : List Dict} {seen : List String} {es : List Entry}
    (hfwd : g.adjForward = true) (hvS : ValidDate s) (hvE : ValidDate e)
    (h : generateGo g s e txid fuel covs seen = .ok es) :
    ∀ ent ∈ es, s ≤ ent.due_date ∧
      ∀ r, adjustToBusinessDay g e true = .ok r → ent.due_date ≤ r := by
  induction covs generalizing seen es with
  | nil =>
      have he : es = [] := by
        rw [show generateGo g s e txid fuel [] seen = .ok [] from rfl] at h
        simpa using h.symm
      rw [he]; simp
  | cons cov rest ih =>
      rw [show generateGo g s e txid fuel (cov :: rest) seen =
          generateStep g s e txid fuel cov (generateGo g s e txid fuel rest) seen
          from rfl] at h
      simp only [generateStep] at h
      split at h
      · simp at h
      · simp at h
      · split at h
        · simp at h
        · split at h
          · simp at h
          · split at h
            · simp at h
            · simp at h
            · rename_i a heqa
              split at h
              · rename_i b heqb
                have he : es = a ++ b := by simpa using h.symm
                rw [he]
                intro ent hmem
                rcases List.mem_append.mp hmem with hm1 | hm2
                · exact genForCovenant_bounds hfwd hvS hvE heqa ent hm1
                · exact ih heqb ent hm2
              · rename_i hno
                exact absurd h (hno es)

/-- C1 (amended): with the forward adjustment direction (the source
default), every schedule entry emitted by a normally returning
`generateSchedules` call has its due date in the window from the
transaction start date to the forward business-day adjustment of the
transaction end date: `start_date ≤ due_date`, and whenever the
adjustment of the end date is defined, `due_date ≤ adjust(end_date)`.
The due date of the final periodic entry may exceed the end date itself
(see the counterexample), but never its adjustment. -/
theorem c1_due_dates_bounded {g : Gen} {t : Dict} {covs : List Dict} {fuel : Nat}
    {es : List Entry} {s e : Date} (hfwd : g.adjForward = true)
    (hv : validateTransaction t = .ok (s, e))
    (h : generateSchedules g t covs fuel = .ok es) :
    ∀ ent ∈ es, s ≤ ent.due_date ∧
      ∀ r, adjustToBusinessDay g e true = .ok r → ent.due_date ≤ r := by
  obtain ⟨hvs, hve, _⟩ := validateTransaction_facts hv
  unfold generateSchedules at h
  rw [hv] at h
  dsimp only at h
  exact generateGo_bounds hfwd hvs hve h

/-- Counterexample for C1 as stated: with the default forward adjustment
and an empty holiday set, the monthly covenant on the transaction
2025-01-15 → 2025-02-15 emits one entry whose due date 2025-02-17 exceeds
the transaction end date 2025-02-15 (a Saturday): the cutoff check runs
before the business-day adjustment, which pushes the due date past the
end date. -/
theorem c1_due_exceeds_end_counterexample :
    generateSchedules gFwd txM [covM] 20 =
      .ok [⟨"SCH-COV-M-001", "COV-M", ⟨2025, 2, 17⟩, "pending", ⟨2025, 1, 15⟩, ⟨2025, 2, 14⟩⟩] ∧
    validateTransaction txM = .ok (⟨2025, 1, 15⟩, ⟨2025, 2, 15⟩) ∧
    ((⟨2025, 2, 15⟩ : Date) < ⟨2025, 2, 17⟩) := by
  decide

/-- Witness for C1 (amended) at the same scenario: the emitted due date
2025-02-17 lies between the start date and the forward adjustment of the
end date (which is 2025-02-17 itself). -/
theorem c1_due_dates_bounded_witness :
    (⟨2025, 1, 15⟩ : Date) ≤ ⟨2025, 2, 17⟩ ∧ (⟨2025, 2, 17⟩ : Date) ≤ ⟨2025, 2, 17⟩ := by
  have h := c1_due_dates_bounded (s := ⟨2025, 1, 15⟩) (e := ⟨2025, 2, 15⟩)
    (by decide) (by decide)
    (show generateSchedules gFwd txM [covM] 20 =
      .ok [⟨"SCH-COV-M-001", "COV-M", ⟨2025, 2, 17⟩, "pending", ⟨2025, 1, 15⟩, ⟨2025, 2, 14⟩⟩]
      from by decide)
    ⟨"SCH-COV-M-001", "COV-M", ⟨2025, 2, 17⟩, "pending", ⟨2025, 1, 15⟩, ⟨2025, 2, 14⟩⟩
    (by decide)
  exact ⟨h.1, h.2 ⟨2025, 2, 17⟩ (by decide)⟩

/-! ### Decimal digits and schedule identifiers (C3) -/

theorem digitChar_toNat {d : Nat} (h : d < 10) : (digitChar d).toNat = 48 + d := by
  interval_cases d <;> decide

theorem digitsRev_eq (fuel n : Nat) (h : n ≤ fuel) :
    digitsRev fuel n = (Nat.digits 10 n).map digitChar := by
  induction fuel generalizing n with
  | zero =>
      have hn : n = 0 := Nat.le_zero.mp h
      subst hn
      rw [show digitsRev 0 0 = [] from rfl, Nat.digits_zero, List.map_nil]
  | succ f ih =>
      by_cases h0 : n = 0
      · subst h0
        rw [show digitsRev (f + 1) 0 = [] from rfl, Nat.digits_zero, List.map_nil]
      · rw [show digitsRev (f + 1) n
              = (if n = 0 then [] else digitChar (n % 10) :: digitsRev f (n / 10)) from rfl,
            if_neg h0,
            Nat.digits_def' (by norm_num : (1 : Nat) < 10) (Nat.pos_of_ne_zero h0),
            List.map_cons,
            ih (n / 10) (by
              have := Nat.div_lt_self (Nat.pos_of_ne_zero h0) (by norm_num : 1 < 10)
              omega)]

theorem foldr_ofDigits (ds : List Nat) (hd : ∀ x ∈ ds, x < 10) :
    ds.foldr (fun x a => a * 10 + ((digitChar x).toNat - 48)) 0 = Nat.ofDigits 10 ds := by
  induction ds with
  | nil => simp [Nat.ofDigits]
  | cons x ds ih =>
      simp only [List.foldr_cons]
      rw [ih (fun y hy => hd y (List.mem_cons_of_mem x hy)),
          Nat.ofDigits_cons, digitChar_toNat (hd x (List.mem_cons_self x ds))]
      omega

theorem digitsVal_reverse_map (ds : List Nat) (hd : ∀ x ∈ ds, x < 10) :
    digitsVal ((ds.map digitChar).reverse) = Nat.ofDigits 10 ds := by
  unfold digitsVal
  rw [List.foldl_reverse, List.foldr_map]
  exact foldr_ofDigits ds hd

theorem digitsVal_natDigits (n : Nat) : digitsVal (natDigits n) = n := by
  unfold natDigits
  rw [digitsRev_eq n n (Nat.le_refl n),
      digitsVal_reverse_map (Nat.digits 10 n)
        (fun x hx => Nat.digits_lt_base (by norm_num) hx)]
  exact Nat.ofDigits_digits 10 n

theorem digitsVal_replicate_zero (k : Nat) (t : List Char) :
    digitsVal (List.replicate k '0' ++ t) = digitsVal t := by
  induction k with
  | zero => rfl
  | succ k ih =>
      rw [List.replicate_succ, List.cons_append,
          show digitsVal ('0' :: (List.replicate k '0' ++ t))
            = digitsVal (List.replicate k '0' ++ t) from rfl]
      exact ih

theorem digitsVal_padNum (w n : Nat) : digitsVal (padNum w n) = n := by
  unfold padNum
  rw [digitsVal_replicate_zero]
  exact digitsVal_natDigits n

theorem padNum_inj {w a b : Nat} (h : padNum w a = padNum w b) : a = b := by
  have h2 := congrArg digitsVal h
  rwa [digitsVal_padNum, digitsVal_padNum] at h2

theorem padNum_isDigit {w n : Nat} : ∀ c ∈ padNum w n, c.isDigit = true := by
  intro c hc
  unfold padNum at hc
  rcases List.mem_append.mp hc with hz | hd
  · rw [List.eq_of_mem_replicate hz]; decide
  · unfold natDigits at hd
    rw [List.mem_reverse, digitsRev_eq n n (Nat.le_refl n)] at hd
    rcases List.mem_map.mp hd with ⟨x, hx, rfl⟩
    have hx10 : x < 10 := Nat.digits_lt_base (by norm_num) hx
    interval_cases x <;> decide

theorem takeWhile_all_append {p : Char → Bool} (xs : List Char) (y : Char) (ys : List Char)
    (hx : ∀ x ∈ xs, p x = true) (hy : p y = false) :
    (xs ++ y :: ys).takeWhile p = xs := by
  induction xs with
  | nil => simp [List.takeWhile_cons, hy]
  | cons x xs ih =>
      have hpx : p x = true := hx x (List.mem_cons_self x xs)
      simp [List.takeWhile_cons, hpx, ih (fun z hz => hx z (List.mem_cons_of_mem x hz))]

theorem dropWhile_all_append {p : Char → Bool} (xs : List Char) (y : Char) (ys : List Char)
    (hx : ∀ x ∈ xs, p x = true) (hy : p y = false) :
    (xs ++ y :: ys).dropWhile p = y :: ys := by
  induction xs with
  | nil => simp [List.dropWhile_cons, hy]
  | cons x xs ih =>
      have hpx : p x = true := hx x (List.mem_cons_self x xs)
      simp [List.dropWhile_cons, hpx, ih (fun z hz => hx z (List.mem_cons_of_mem x hz))]

theorem digit_suffix_cancel {p q a b : List Char}
    (hp : ∀ c ∈ p, c.isDigit = true) (hq : ∀ c ∈ q, c.isDigit = true)
    (h : p ++ '-' :: a = q ++ '-' :: b) : p = q ∧ a = b := by
  have hdash : ('-' : Char).isDigit = false := by decide
  have h1 : p = q := by
    have h0 := congrArg (List.takeWhile Char.isDigit) h
    rwa [takeWhile_all_append p '-' a hp hdash,
         takeWhile_all_append q '-' b hq hdash] at h0
  have h2 := congrArg (List.dropWhile Char.isDigit) h
  rw [dropWhile_all_append p '-' a hp hdash,
      dropWhile_all_append q '-' b hq hdash] at h2
  exact ⟨h1, (List.cons.inj h2).2⟩

theorem scheduleId_inj {c d : String} {i j : Nat}
    (h : scheduleId c i = scheduleId d j) : c = d ∧ i = j := by
  unfold scheduleId at h
  have hl : ("SCH-".data ++ c.data) ++ ('-' :: padNum 3 i)
          = ("SCH-".data ++ d.data) ++ ('-' :: padNum 3 j) :=
    congrArg String.data h
  have key : ∀ (cs ps : List Char),
      (("SCH-".data ++ cs) ++ ('-' :: ps)).reverse
        = ps.reverse ++ '-' :: (cs.reverse ++ "SCH-".data.reverse) := by
    intro cs ps
    simp [List.reverse_append, List.append_assoc]
  have hrev := congrArg List.reverse hl
  rw [key c.data (padNum 3 i), key d.data (padNum 3 j)] at hrev
  obtain ⟨hP, hC⟩ := digit_suffix_cancel
      (fun x hx => padNum_isDigit x (List.mem_reverse.mp hx))
      (fun x hx => padNum_isDigit x (List.mem_reverse.mp hx)) hrev
  constructor
  · have h3 := List.append_cancel_right hC
    have h4 := congrArg List.reverse h3
    rw [List.reverse_reverse, List.reverse_reverse] at h4
    cases c with
    | mk cd =>
        cases d with
        | mk dd => exact congrArg String.mk h4
  · have h5 := congrArg List.reverse hP
    rw [List.reverse_reverse, List.reverse_reverse] at h5
    exact padNum_inj h5

theorem range_succ_eq_cons (s n : Nat) :
    List.range' s (n + 1) = s :: List.range' (s + 1) n := rfl

theorem range_mem_lb (n : Nat) : ∀ s m : Nat, m ∈ List.range' s n → s ≤ m := by
  induction n with
  | zero => intro s m hm; simp [List.range'] at hm
  | succ n ih =>
      intro s m hm
      rw [range_succ_eq_cons] at hm
      rcases List.mem_cons.mp hm with rfl | hm2
      · exact Nat.le_refl m
      · exact Nat.le_of_succ_le (ih (s + 1) m hm2)

theorem scheduleId_map_range_nodup (cid : String) (n : Nat) : ∀ s : Nat,
    ((List.range' s n).map (scheduleId cid)).Nodup := by
  induction n with
  | zero => intro s; simp
  | succ n ih =>
      intro s
      rw [range_succ_eq_cons, List.map_cons]
      refine List.nodup_cons.mpr ⟨?_, ih (s + 1)⟩
      intro hmem
      rcases List.mem_map.mp hmem with ⟨k, hk, hek⟩
      obtain rfl : k = s := (scheduleId_inj hek).2
      have := range_mem_lb n (k + 1) k hk
      omega

/-! ### The schedule identifiers emitted by each generator (C3) -/

theorem weeklyGo_ids {g : Gen} {endD : Date} {cov : Dict} {fuel : Nat} {ps : Date}
    {idx : Nat} {es : List Entry} (h : weeklyGo g endD cov fuel ps idx = .ok es) :
    es.map (fun x => x.schedule_id)
      = (List.range' idx es.length).map (scheduleId (dstr cov "covenant_id")) := by
  induction fuel generalizing ps idx es with
  | zero =>
      rw [show weeklyGo g endD cov 0 ps idx = Res.out from rfl] at h
      exact Res.noConfusion h
  | succ n ih =>
      rw [show weeklyGo g endD cov (n + 1) ps idx =
          weeklyStep g endD cov (weeklyGo g endD cov n) ps idx from rfl] at h
      simp only [weeklyStep] at h
      split at h
      · split at h
        · simp at h
        · simp at h
        · rename_i due heq
          split at h
          · have he : es = [] := by simpa using h.symm
            subst he
            rfl
          · split at h
            · rename_i rest heq2
              have he : es = mkScheduleEntry cov idx due ps (addDays ps 6) :: rest := by
                simpa using h.symm
              subst he
              rw [List.map_cons, List.length_cons, range_succ_eq_cons, List.map_cons]
              exact congrArg₂ List.cons rfl (ih heq2)
            · rename_i hno
              exact absurd h (hno es)
      · have he : es = [] := by simpa using h.symm
        subst he
        rfl

theorem dailyGo_ids {g : Gen} {endD : Date} {cov : Dict} {fuel : Nat} {cur : Date}
    {idx : Nat} {es : List Entry} (h : dailyGo g endD cov fuel cur idx = .ok es) :
    es.map (fun x => x.schedule_id)
      = (List.range' idx es.length).map (scheduleId (dstr cov "covenant_id")) := by
  induction fuel generalizing cur idx es with
  | zero =>
      rw [show dailyGo g endD cov 0 cur idx = Res.out from rfl] at h
      exact Res.noConfusion h
  | succ n ih =>
      rw [show dailyGo g endD cov (n + 1) cur idx =
          dailyStep g endD cov (dailyGo g endD cov n) cur idx from rfl] at h
      simp only [dailyStep] at h
      split at h
      · split at h
        · split at h
          · simp at h
          · simp at h
          · rename_i due heq
            split at h
            · have he : es = [] := by simpa using h.symm
              subst he
              rfl
            · split at h
              · rename_i rest heq2
                have he : es = mkScheduleEntry cov idx due cur cur :: rest := by
                  simpa using h.symm
                subst he
                rw [List.map_cons, List.length_cons, range_succ_eq_cons, List.map_cons]
                exact congrArg₂ List.cons rfl (ih heq2)
              · rename_i hno
                exact absurd h (hno es)
        · exact ih h
      · have he : es = [] := by simpa using h.symm
        subst he
        rfl

theorem extrasIf_shape {g : Gen} {endD : Date} {cov : Dict} {np ps : Date}
    {idx : Nat} {extras : List Entry} {idx1 : Nat} {c : Prop} [Decidable c]
    (h : (if c then periodicExtra g endD cov np ps idx
          else (.ok ([], idx) : Res (List Entry × Nat))) = .ok (extras, idx1)) :
    (extras = [] ∧ idx1 = idx) ∨
      ∃ feb, extras = [mkScheduleEntry cov idx feb ps feb] ∧ idx1 = idx + 1 ∧ c ∧
        (if isBusinessDay g (febEnd np) then Res.ok (febEnd np)
         else adjustToBusinessDay g (febEnd np) g.adjForward) = .ok feb := by
  split at h
  · rename_i hc
    simp only [periodicExtra] at h
    split at h
    · simp at h
    · simp at h
    · rename_i feb heq
      split at h
      · have hpair : extras = [mkScheduleEntry cov idx feb ps feb] ∧ idx1 = idx + 1 := by
          simpa using h.symm
        exact .inr ⟨feb, hpair.1, hpair.2, hc, heq⟩
      · exact .inl (by simpa using h.symm)
  · exact .inl (by simpa using h.symm)

theorem periodicGo_ids {g : Gen} {startD endD : Date} {cov : Dict} {months : Nat}
    {origDay : Nat} {isMonthEnd : Bool} {fuel : Nat} {ps : Date} {idx : Nat} {es : List Entry}
    (h : periodicGo g startD endD cov months origDay isMonthEnd fuel ps idx = .ok es) :
    es.map (fun x => x.schedule_id)
      = (List.range' idx es.length).map (scheduleId (dstr cov "covenant_id")) := by
  induction fuel generalizing ps idx es with
  | zero =>
      rw [show periodicGo g startD endD cov months origDay isMonthEnd 0 ps idx = Res.out
          from rfl] at h
      exact Res.noConfusion h
  | succ n ih =>
      rw [show periodicGo g startD endD cov months origDay isMonthEnd (n + 1) ps idx =
          periodicStep g startD endD cov months origDay isMonthEnd
            (periodicGo g startD endD cov months origDay isMonthEnd n) ps idx from rfl] at h
      simp only [periodicStep] at h
      split at h
      · simp at h
      · simp at h
      · rename_i extras idx1 heq0
        have hsh := extrasIf_shape heq0
        split at h
        · have he : es = extras := by simpa using h.symm
          subst he
          rcases hsh with ⟨h1, _⟩ | ⟨feb, h1, _, _, _⟩
          · subst h1; rfl
          · subst h1; rfl
        · split at h
          · simp at h
          · simp at h
          · rename_i due heq
            split at h
            · rename_i rest heq2
              have he : es = extras ++
                  mkScheduleEntry cov idx1 due ps (predDate (addMonths ps months)) :: rest := by
                simpa using h.symm
              subst he
              rcases hsh with ⟨h1, h2⟩ | ⟨feb, h1, h2, _, _⟩
              · subst h1
                subst h2
                rw [List.nil_append, List.map_cons, List.length_cons,
                    range_succ_eq_cons, List.map_cons]
                exact congrArg₂ List.cons rfl (ih heq2)
              · subst h1
                subst h2
                simp only [List.cons_append, List.nil_append, List.map_cons, List.length_cons]
                rw [range_succ_eq_cons, List.map_cons, range_succ_eq_cons, List.map_cons]
                exact congrArg₂ List.cons rfl (congrArg₂ List.cons rfl (ih heq2))
            · rename_i hno
              exact absurd h (hno es)

theorem genForCovenant_ids {g : Gen} {startD endD : Date} {cov : Dict} {fuel : Nat}
    {es : List Entry} (h : genForCovenant g startD endD cov fuel = .ok es) :
    es.map (fun x => x.schedule_id)
      = (List.range' 1 es.length).map (scheduleId (dstr cov "covenant_id")) := by
  simp only [genForCovenant] at h
  split at h
  · have he : es = [] := by simpa using h.symm
    subst he; rfl
  · split at h
    · have he : es = [] := by simpa using h.symm
      subst he; rfl
    · split at h
      · have he : es = [] := by simpa using h.symm
        subst he; rfl
      · split at h
        · exact dailyGo_ids h
        · split at h
          · exact weeklyGo_ids h
          · split at h
            · exact periodicGo_ids h
            · split at h
              · exact periodicGo_ids h
              · split at h
                · exact periodicGo_ids h
                · simp at h

theorem generateGo_nodup {g : Gen} {s e : Date} {txid : String} {fuel : Nat}
    {covs : List Dict} {seen : List String} {es : List Entry}
    (h : generateGo g s e txid fuel covs seen = .ok es) :
    (es.map (fun x => x.schedule_id)).Nodup ∧
      ∀ x ∈ es, ∃ cid k, x.schedule_id = scheduleId cid k ∧ cid ∉ seen := by
  induction covs generalizing seen es with
  | nil =>
      have he : es = [] := by
        rw [show generateGo g s e txid fuel [] seen = .ok [] from rfl] at h
        simpa using h.symm
      subst he
      exact ⟨List.nodup_nil, by simp⟩
  | cons cov rest ih =>
      rw [show generateGo g s e txid fuel (cov :: rest) seen =
          generateStep g s e txid fuel cov (generateGo g s e txid fuel rest) seen
          from rfl] at h
      simp only [generateStep] at h
      split at h
      · simp at h
      · simp at h
      · split at h
        · simp at h
        · split at h
          · simp at h
          · rename_i hnotseen
            split at h
            · simp at h
            · simp at h
            · rename_i a heqa
              split at h
              · rename_i b heqb
                have he : es = a ++ b := by simpa using h.symm
                subst he
                have hida := genForCovenant_ids heqa
                obtain ⟨hnb, hshb⟩ := ih heqb
                constructor
                · rw [List.map_append]
                  refine List.Nodup.append ?_ hnb ?_
                  · rw [hida]
                    exact scheduleId_map_range_nodup (dstr cov "covenant_id") a.length 1
                  · intro x hxa hxb
                    rw [hida] at hxa
                    rcases List.mem_map.mp hxa with ⟨k, hk, hxk⟩
                    rcases List.mem_map.mp hxb with ⟨en, hen, hxen⟩
                    obtain ⟨cid2, k2, hcid2, hnot2⟩ := hshb en hen
                    have hss : scheduleId cid2 k2 = scheduleId (dstr cov "covenant_id") k := by
                      rw [← hcid2, hxen, ← hxk]
                    have hc := (scheduleId_inj hss).1
                    exact hnot2 (by rw [hc]; exact List.mem_cons_self _ _)
                · intro x hx
                  rcases List.mem_append.mp hx with hxa | hxb
                  · have hxid : x.schedule_id ∈ a.map (fun y => y.schedule_id) :=
                      List.mem_map_of_mem (fun y => y.schedule_id) hxa
                    rw [hida] at hxid
                    rcases List.mem_map.mp hxid with ⟨k, hk, hxk⟩
                    exact ⟨dstr cov "covenant_id", k, hxk.symm, hnotseen⟩
                  · obtain ⟨cid2, k2, hcid2, hnot2⟩ := hshb x hxb
                    exact ⟨cid2, k2, hcid2, fun hmem => hnot2 (List.mem_cons_of_mem _ hmem)⟩
              · rename_i hno
                exact absurd h (hno es)

/-- C3: for every `generateSchedules` call that returns normally, the
`schedule_id` values of all returned entries are pairwise distinct
(including across different covenants of the batch), every identifier has
the form `SCH-<covenant_id>-<zero-padded index>` built by `scheduleId`,
and the returned list is a deterministic function of the inputs: any
second normal return of the same call is the identical ordered list. -/
theorem c3_schedule_ids_unique_and_deterministic {g : Gen} {t : Dict} {covs : List Dict}
    {fuel : Nat} {es : List Entry}
    (h : generateSchedules g t covs fuel = .ok es) :
    (es.map (fun x => x.schedule_id)).Nodup ∧
      (∀ x ∈ es, ∃ cid k, x.schedule_id = scheduleId cid k) ∧
      ∀ es2, generateSchedules g t covs fuel = .ok es2 → es2 = es := by
  refine ⟨?_, ?_, fun es2 h2 => ?_⟩
  · unfold generateSchedules at h
    split at h
    · simp at h
    · simp at h
    · exact (generateGo_nodup h).1
  · unfold generateSchedules at h
    split at h
    · simp at h
    · simp at h
    · intro x hx
      obtain ⟨cid, k, hk, _⟩ := (generateGo_nodup h).2 x hx
      exact ⟨cid, k, hk⟩
  · rw [h] at h2
    simpa using h2.symm

/-- Witness for C3: the transaction `txP` with the two monthly covenants
`covP1`, `covP2` returns four entries with pairwise distinct schedule
identifiers, each of the `scheduleId` form, and the return value is
uniquely determined. -/
theorem c3_schedule_ids_unique_and_deterministic_witness :
    ((entriesP.map (fun x => x.schedule_id)).Nodup ∧
      (∀ x ∈ entriesP, ∃ cid k, x.schedule_id = scheduleId cid k) ∧
      ∀ es2, generateSchedules gFwd txP [covP1, covP2] 20 = .ok es2 → es2 = entriesP) :=
  c3_schedule_ids_unique_and_deterministic
    (show generateSchedules gFwd txP [covP1, covP2] 20 = .ok entriesP from by decide)

/-! ### Contiguity of the regular periodic periods (C10) -/

theorem extra_feb_not_regular {g : Gen} {np feb : Date}
    (hv : ValidDate np) (hd28 : 28 ≤ np.day) (hm3 : np.month = 3)
    (heq : (if isBusinessDay g (febEnd np) then Res.ok (febEnd np)
            else adjustToBusinessDay g (febEnd np) g.adjForward) = .ok feb) :
    feb ≠ predDate np := by
  have hpred : predDate np = ⟨np.year, np.month, np.day - 1⟩ := by
    unfold predDate
    rw [if_pos (by omega)]
  have hvF : ValidDate (febEnd np) := by
    obtain ⟨h1, _, _, _, _⟩ := hv
    have := daysInMonth_ge np.year 2
    unfold febEnd ValidDate
    dsimp only
    omega
  intro hfe
  split at heq
  · have hfeb : febEnd np = feb := by simpa using heq
    have h2 : feb.month = 2 := by rw [← hfeb]; rfl
    have h3 : feb.month = np.month := by rw [hfe, hpred]
    omega
  · obtain ⟨k, hk, hr, _, _⟩ := adjustGo_ok_spec
      (show adjustGo g g.adjForward 10 (febEnd np) = .ok feb from heq)
    have hb2 : daysBeforeMonth np.year 2 = 31 := by
      rw [show daysBeforeMonth np.year 2
            = 31 + (if 3 ≤ 2 ∧ isLeap np.year then 1 else 0) from rfl,
          if_neg (fun hc => absurd hc.1 (by omega))]
    have hb3 : daysBeforeMonth np.year 3
        = 59 + (if 3 ≤ 3 ∧ isLeap np.year then 1 else 0) := rfl
    have hdim2 : daysInMonth np.year 2 = if isLeap np.year then 29 else 28 := rfl
    cases hfwd : g.adjForward with
    | true =>
        rw [hfwd, stepK_true_eq_addDays] at hr
        have hto : toOrdinal feb = toOrdinal (febEnd np) + k := by
          rw [hr]; exact toOrdinal_addDays hvF k
        have htoP : toOrdinal (predDate np)
            = daysBeforeYear np.year + daysBeforeMonth np.year 3 + (np.day - 1) := by
          rw [hpred]
          unfold toOrdinal
          dsimp only
          rw [hm3]
        have htoF : toOrdinal (febEnd np)
            = daysBeforeYear np.year + 31 + daysInMonth np.year 2 := by
          unfold toOrdinal febEnd
          dsimp only
          rw [hb2]
        rw [hfe] at hto
        by_cases hL : isLeap np.year = true
        · rw [if_pos hL] at hdim2
          rw [if_pos ⟨by omega, hL⟩] at hb3
          omega
        · rw [if_neg hL] at hdim2
          rw [if_neg (fun hc => hL hc.2)] at hb3
          omega
    | false =>
        rw [hfwd] at hr
        have hkd : k < (febEnd np).day := by
          show k < daysInMonth np.year 2
          have := daysInMonth_ge np.year 2
          omega
        rw [stepK_false_day (febEnd np) k hkd] at hr
        have hmF : feb.month = 2 := by rw [hr]; dsimp only; rfl
        have hmP : feb.month = np.month := by rw [hfe, hpred]
        omega

theorem periodicGo_tiles {g : Gen} {startD endD : Date} {cov : Dict} {months : Nat}
    {origDay : Nat} {isMonthEnd : Bool} {fuel : Nat} {ps : Date} {idx : Nat} {es : List Entry}
    (hv : ValidDate ps) (hme : isMonthEnd = true → 28 ≤ ps.day)
    (h : periodicGo g startD endD cov months origDay isMonthEnd fuel ps idx = .ok es) :
    List.Chain' (fun a b => b.period_start = succDate a.period_end)
        (es.filter (isRegularPeriod months)) ∧
      (∀ a ∈ (es.filter (isRegularPeriod months)).head?, a.period_start = ps) ∧
      ∀ ent ∈ es, isRegularPeriod months ent = true ∨ ent.period_end = ent.due_date := by
  induction fuel generalizing ps idx es with
  | zero =>
      rw [show periodicGo g startD endD cov months origDay isMonthEnd 0 ps idx = Res.out
          from rfl] at h
      exact Res.noConfusion h
  | succ n ih =>
      rw [show periodicGo g startD endD cov months origDay isMonthEnd (n + 1) ps idx =
          periodicStep g startD endD cov months origDay isMonthEnd
            (periodicGo g startD endD cov months origDay isMonthEnd n) ps idx from rfl] at h
      simp only [periodicStep] at h
      split at h
      · simp at h
      · simp at h
      · rename_i extras idx1 heq0
        have hsh := extrasIf_shape heq0
        have hex : extras.filter (isRegularPeriod months) = [] ∧
            ∀ ent ∈ extras, ent.period_end = ent.due_date := by
          rcases hsh with ⟨h1, _⟩ | ⟨feb, h1, _, hc, heqf⟩
          · subst h1; exact ⟨rfl, by simp⟩
          · obtain ⟨hc1, hc2, hc3⟩ := hc
            subst hc1
            have hnp : ValidDate (addMonths ps 3) := validDate_addMonths hv 3
            have hd28 : 28 ≤ (addMonths ps 3).day := addMonths_day_ge (hme hc2) 3
            have hner := extra_feb_not_regular hnp hd28 hc3 heqf
            subst h1
            constructor
            · have hreg : isRegularPeriod 3 (mkScheduleEntry cov idx feb ps feb) = false := by
                unfold isRegularPeriod mkScheduleEntry
                dsimp only
                exact decide_eq_false hner
              simp [List.filter_cons, hreg]
            · intro ent hent
              rcases List.mem_cons.mp hent with rfl | hent2
              · rfl
              · simp at hent2
        split at h
        · have he : es = extras := by simpa using h.symm
          subst he
          refine ⟨?_, ?_, fun ent hent => .inr (hex.2 ent hent)⟩
          · rw [hex.1]; exact List.chain'_nil
          · rw [hex.1]; simp
        · split at h
          · simp at h
          · simp at h
          · rename_i due heq
            split at h
            · rename_i rest heq2
              have he : es = extras ++
                  mkScheduleEntry cov idx1 due ps (predDate (addMonths ps months)) :: rest := by
                simpa using h.symm
              subst he
              have hv2 : ValidDate (addMonths ps months) := validDate_addMonths hv months
              have hme2 : isMonthEnd = true → 28 ≤ (addMonths ps months).day :=
                fun hmeT => addMonths_day_ge (hme hmeT) months
              obtain ⟨ihch, ihhd, ihdi⟩ := ih hv2 hme2 heq2
              have hregT : isRegularPeriod months
                  (mkScheduleEntry cov idx1 due ps (predDate (addMonths ps months))) = true := by
                unfold isRegularPeriod mkScheduleEntry
                dsimp only
                exact decide_eq_true rfl
              have hfil : (extras ++
                    mkScheduleEntry cov idx1 due ps (predDate (addMonths ps months))
                      :: rest).filter (isRegularPeriod months)
                  = mkScheduleEntry cov idx1 due ps (predDate (addMonths ps months))
                      :: rest.filter (isRegularPeriod months) := by
                rw [List.filter_append, hex.1, List.nil_append, List.filter_cons, if_pos hregT]
              refine ⟨?_, ?_, ?_⟩
              · rw [hfil, List.chain'_cons']
                refine ⟨?_, ihch⟩
                intro b hb
                rw [ihhd b hb]
                exact (succDate_predDate hv2).symm
              · rw [hfil]
                intro a ha
                have hax : mkScheduleEntry cov idx1 due ps (predDate (addMonths ps months))
                    = a := by
                  simpa using ha
                rw [← hax]
                rfl
              · intro ent hent
                rcases List.mem_append.mp hent with h1 | h2
                · exact .inr (hex.2 ent h1)
                · rcases List.mem_cons.mp h2 with rfl | h3
                  · exact .inl hregT
                  · exact ihdi ent h3
            · rename_i hno
              exact absurd h (hno es)

/-- C10: in periodic generation, every regular (non-extra) entry's
`period_end` is its `period_start` advanced by `months` months minus one
day, consecutive regular entries chain with the next `period_start` equal
to the previous `period_end` plus one day (so regular periods tile the
timeline contiguously), and every emitted entry is either regular or a
quarterly extra entry, recognisable by its `period_end` equalling its due
date. -/
theorem c10_regular_periods_tile {g : Gen} {startD endD : Date} {cov : Dict}
    {months fuel : Nat} {es : List Entry}
    (hv : ValidDate startD)
    (h : periodicSchedules g startD endD cov months fuel = .ok es) :
    (∀ ent ∈ es.filter (isRegularPeriod months),
        ent.period_end = predDate (addMonths ent.period_start months)) ∧
      List.Chain' (fun a b => b.period_start = succDate a.period_end)
        (es.filter (isRegularPeriod months)) ∧
      ∀ ent ∈ es, isRegularPeriod months ent = true ∨ ent.period_end = ent.due_date := by
  have hme : decide (daysInMonth startD.year startD.month = startD.day) = true →
      28 ≤ startD.day := by
    intro hd
    have h1 := of_decide_eq_true hd
    have h2 := daysInMonth_ge startD.year startD.month
    omega
  obtain ⟨hch, _, hdi⟩ := periodicGo_tiles hv hme
    (show periodicGo g startD endD cov months startD.day
      (decide (daysInMonth startD.year startD.month = startD.day)) fuel startD 1 = .ok es
      from h)
  refine ⟨?_, hch, hdi⟩
  intro ent hent
  exact of_decide_eq_true ((List.mem_filter.mp hent).2)

/-- Witness for C10 at the quarterly month-end scenario: of the five
entries, the four regular ones have full quarter periods chaining
contiguously, and the fifth (the extra February entry) has its period end
equal to its due date. -/
theorem c10_regular_periods_tile_witness :
    (∀ ent ∈ entriesQ.filter (isRegularPeriod 3),
        ent.period_end = predDate (addMonths ent.period_start 3)) ∧
      List.Chain' (fun a b => b.period_start = succDate a.period_end)
        (entriesQ.filter (isRegularPeriod 3)) ∧
      ∀ ent ∈ entriesQ, isRegularPeriod 3 ent = true ∨ ent.period_end = ent.due_date :=
  c10_regular_periods_tile (by decide)
    (show periodicSchedules gFwd ⟨2025, 3, 31⟩ ⟨2026, 3, 31⟩ covQ 3 20 = .ok entriesQ
      from by decide)

end CovSched
